import Mathlib

/-!
Verification of the cuDAMO optimization core (`cudamo.py`).

Shallow embedding conventions:
* DNA sequences are lists over a four-letter alphabet `Nuc`.
* numpy/torch float arithmetic is idealized as exact real arithmetic
  (`ℝ`); the float literal `1e-4` becomes the rational `1/10000`.
* fallible operations (torch shape errors, `list.index` raising
  `ValueError`, sklearn raising on one-class input) return `Option`.
* `np.argsort(-scores, kind="mergesort")` (a stable descending sort of
  indices) is embedded with the stable `List.mergeSort` on the index
  list, comparing by score descending.
-/

noncomputable section

namespace CuDAMO

open Classical

/-- The four-letter DNA alphabet, in the fixed row order A, C, G, T used
throughout the program. -/
inductive Nuc where
  | A : Nuc
  | C : Nuc
  | G : Nuc
  | T : Nuc
deriving DecidableEq, Repr

/-- Modelled from the spec: the Encoder collaborator supplies the
reverse-complement string (Watson-Crick complement). -/
def Nuc.complement : Nuc → Nuc
  | Nuc.A => Nuc.T
  | Nuc.C => Nuc.G
  | Nuc.G => Nuc.C
  | Nuc.T => Nuc.A

/-- Modelled from the spec: reverse complement of a sequence, derived
once per input sequence and appended as an independent entry. -/
def revComp (s : List Nuc) : List Nuc :=
  (s.map Nuc.complement).reverse

/-- The alphabet in index order A, C, G, T (row order of the PWM). -/
def nucOfIdx : Fin 4 → Nuc
  | ⟨0, _⟩ => Nuc.A
  | ⟨1, _⟩ => Nuc.C
  | ⟨2, _⟩ => Nuc.G
  | ⟨3, _⟩ => Nuc.T

/-- A position weight matrix: 4 rows (A, C, G, T) by L columns of real
log-odds scores. -/
abbrev PWM (L : ℕ) : Type := Matrix (Fin 4) (Fin L) ℝ

/-- Modelled from the spec: the external one-hot Encoder
(`utils.sequence.one_hot_encode`, not part of the core source) maps a
nucleotide string to its indicator representation: channel `c` is 1 at
position `j` exactly when the letter at `j` is the `c`-th letter of
A, C, G, T. -/
def oneHot (x : List Nuc) (c : Fin 4) (j : ℕ) : ℝ :=
  if x.get? j = some (nucOfIdx c) then 1 else 0

/-- One output of `torch.nn.Conv1d(4, 1, kernel_size=L)` with the PWM as
weights and zero bias: the correlation of the PWM with the one-hot
encoding of the window starting at `p`. -/
def convOut {L : ℕ} (pwm : PWM L) (x : List Nuc) (p : ℕ) : ℝ :=
  ∑ c : Fin 4, ∑ k : Fin L, pwm c k * oneHot x c (p + (k : ℕ))

/-- The full Conv1d output for one sequence: one value per window start
position `p ∈ [0, N − L]`.  `none` when the kernel is longer than the
input (a torch shape error). -/
def convSeq {L : ℕ} (pwm : PWM L) (x : List Nuc) : Option (List ℝ) :=
  if L ≤ x.length ∧ 0 < L then
    some ((List.range (x.length - L + 1)).map (convOut pwm x))
  else none

/-- Maximum of a nonempty list together with the index of its first
occurrence (the value/index pair returned by max pooling). -/
def maxWithIdx : List ℝ → Option (ℝ × ℕ)
  | [] => none
  | v :: rest =>
    match maxWithIdx rest with
    | none => some (v, 0)
    | some (m, i) => if m > v then some (m, i + 1) else some (v, 0)

/-- `torch.nn.MaxPool1d(k, 1, return_indices=True)`: one (max, argmax)
pair per window of width `k`, stride 1; indices are positions in the
input list.  `none` when the pooling window exceeds the input. -/
def maxPool (k : ℕ) (vs : List ℝ) : Option (List (ℝ × ℕ)) :=
  if 0 < k ∧ k ≤ vs.length then
    some ((List.range (vs.length - k + 1)).map fun t =>
      match maxWithIdx ((vs.drop t).take k) with
      | some (m, i) => (m, t + i)
      | none => (0, 0))
  else none

/-- `_get_PWM_model` applied to one sequence: Conv1d over the sequence
followed by MaxPool1d with window `sequenceLength − L + 1`, where
`sequenceLength` is the encoded length of the positive collection. -/
def modelApply {L : ℕ} (pwm : PWM L) (sequenceLength : ℕ) (x : List Nuc) :
    Option (List (ℝ × ℕ)) := do
  let cv ← convSeq pwm x
  maxPool (sequenceLength - L + 1) cv

/-- Python slice `sequences[idx][pos:pos+motifLength]`. -/
def extractSite (sequences : List (List Nuc)) (idx pos motifLength : ℕ) :
    List Nuc :=
  ((sequences.getD idx []).drop pos).take motifLength

/-- `__get_best_site`: merge the forward-strand and
reverse-complement-strand predictions `fwd` and `rev` (each a triple
(score, window index, sequence index)); the forward strand wins only
with a strictly greater score. -/
def getBestSite (fwd rev : ℝ × ℕ × ℕ) (sequences : List (List Nuc))
    (motifLength : ℕ) : ℝ × List Nuc :=
  if fwd.1 > rev.1 then
    (fwd.1, extractSite sequences fwd.2.2 fwd.2.1 motifLength)
  else
    (rev.1, extractSite sequences rev.2.2 rev.2.1 motifLength)

/-- `_score_sequences`: run the model on every sequence of the doubled
collection (forward half followed by reverse-complement half), flatten
the predictions, pair each forward entry with its reverse entry, and
keep the better strand per original sequence. -/
def scoreSequences {L : ℕ} (pwm : PWM L) (sequenceLength : ℕ)
    (sequences : List (List Nuc)) : Option (List ℝ × List (List Nuc)) := do
  let outs ← sequences.mapM (modelApply pwm sequenceLength)
  let flat := outs.flatten
  let scoresTmp := flat.map Prod.fst
  let sitesTmp := flat.map Prod.snd
  let z := scoresTmp.zip (sitesTmp.zip (List.range sequences.length))
  let zz := (z.take (z.length / 2)).zip (z.drop (z.length / 2))
  let best := zz.map fun fr =>
    getBestSite (fr.1.1, fr.1.2) (fr.2.1, fr.2.2) sequences L
  some (best.map Prod.fst, best.map Prod.snd)

/-- Credit one (positive score, negative score) pair contributes to the
AUC: 1 when the positive wins, 1/2 on a tie. -/
def pairCredit (p n : ℝ) : ℝ :=
  if n < p then 1 else if p = n then 1 / 2 else 0

/-- Modelled from the spec: `sklearn.metrics.roc_auc_score` (an external
collaborator) is the probability that a uniformly random
positive-labeled score exceeds a uniformly random negative-labeled
score, ties counted as half-credit; when all labels are identical the
AUC is undefined and the call raises (here: `none`). -/
def rocAucScore (yTrue : List Bool) (yScore : List ℝ) : Option ℝ :=
  let pos := (yTrue.zip yScore).filterMap fun ls =>
    if ls.1 = true then some ls.2 else none
  let neg := (yTrue.zip yScore).filterMap fun ls =>
    if ls.1 = false then some ls.2 else none
  if pos = [] ∨ neg = [] then none
  else
    some (((pos.map fun p => (neg.map fun n => pairCredit p n).sum).sum) /
      ((pos.length : ℝ) * (neg.length : ℝ)))

/-- `_compute_AUC`: label the positive scores 1 and the negative scores
0, concatenate, and return the AUC together with the label and score
lists. -/
def computeAUC (positiveScores negativeScores : List ℝ) :
    Option (ℝ × List Bool × List ℝ) :=
  let yTrue := List.replicate positiveScores.length true ++
    List.replicate negativeScores.length false
  let yScore := positiveScores ++ negativeScores
  (rocAucScore yTrue yScore).map fun a => (a, yTrue, yScore)

/-- The comparison used to argsort by score descending: index `i` may
precede index `j` when the score at `j` is at most the score at `i`. -/
def leIdx (ys : List ℝ) (i j : ℕ) : Bool :=
  decide (ys.getD j 0 ≤ ys.getD i 0)

/-- `np.argsort(-np.asarray(y_score), kind="mergesort")`: the indices of
the scores, stably sorted by score descending (mergesort is the stable
kind; ties keep the original index order). -/
def argsortDesc (ys : List ℝ) : List ℕ :=
  (List.range ys.length).mergeSort (leIdx ys)

/-- The labels in stable score-descending order (`labels` in
`_update_PWM`). -/
def sortedLabels (yTrue : List Bool) (yScore : List ℝ) : List Bool :=
  (argsortDesc yScore).map fun ix => yTrue.getD ix false

/-- The sites in stable score-descending order (`sequences` in
`_update_PWM`). -/
def sortedSites (yScore : List ℝ) (sites : List (List Nuc)) :
    List (List Nuc) :=
  (argsortDesc yScore).map fun ix => sites.getD ix []

/-- `labels.index(0)`: position of the first negative label in sorted
order (the highest-scoring negative). -/
def ixFirstNegative (yTrue : List Bool) (yScore : List ℝ) : ℕ :=
  (sortedLabels yTrue yScore).indexOf false

/-- `len(labels) - labels[::-1].index(1)`: one past the position of the
last positive label in sorted order (the lowest-scoring positive). -/
def ixLastPositive (yTrue : List Bool) (yScore : List ℝ) : ℕ :=
  (sortedLabels yTrue yScore).length -
    (sortedLabels yTrue yScore).reverse.indexOf true

/-- The confusion zone `z[ix_first_negative:ix_last_positive]`: the
(site, label) pairs in the half-open sorted-rank slice from the first
negative to one past the last positive. -/
def confusionZone (yTrue : List Bool) (yScore : List ℝ)
    (sites : List (List Nuc)) : List (List Nuc × Bool) :=
  (((sortedSites yScore sites).zip (sortedLabels yTrue yScore)).drop
      (ixFirstNegative yTrue yScore)).take
    (ixLastPositive yTrue yScore - ixFirstNegative yTrue yScore)

/-- The positive-labeled sites of the confusion zone, in rank order. -/
def positiveMix (yTrue : List Bool) (yScore : List ℝ)
    (sites : List (List Nuc)) : List (List Nuc) :=
  ((confusionZone yTrue yScore sites).filter fun sl => sl.2 = true).map
    Prod.fst

/-- The negative-labeled sites of the confusion zone, in rank order. -/
def negativeMix (yTrue : List Bool) (yScore : List ℝ)
    (sites : List (List Nuc)) : List (List Nuc) :=
  ((confusionZone yTrue yScore sites).filter fun sl => sl.2 = false).map
    Prod.fst

/-- `Counter(s[i:i+1] for s in sequences)[key]`: how many sites carry
nucleotide `x` at position `i` (sites shorter than `i+1` count for no
nucleotide). -/
def countNuc (sequences : List (List Nuc)) (i : ℕ) (x : Nuc) : ℕ :=
  (sequences.filter fun s => s.get? i = some x).length

/-- The raw position frequency matrix of `__generate_PWM`: row `i` holds
the counts of A, C, G, T at motif position `i`. -/
def pfmOf (L : ℕ) (sequences : List (List Nuc)) : Fin L → Fin 4 → ℝ :=
  fun i c => (countNuc sequences (i : ℕ) (nucOfIdx c) : ℝ)

/-- `__normalize_PFM`: add the pseudocount to every cell, then divide
each row by its sum. -/
def normalizePFM {L : ℕ} (pfm : Fin L → Fin 4 → ℝ) (pseudocounts : ℝ) :
    Fin L → Fin 4 → ℝ :=
  fun i c => (pfm i c + pseudocounts) / ∑ d : Fin 4, (pfm i d + pseudocounts)

/-- `__generate_PWM`: count nucleotides per position, apply
add-pseudocount-and-normalize twice (first with `1e-4`, then with `0`),
and return the elementwise natural log, transposed to 4 rows by L
columns. -/
def generatePWM (L : ℕ) (sequences : List (List Nuc)) : PWM L :=
  Matrix.of fun c i =>
    Real.log (normalizePFM (normalizePFM (pfmOf L sequences) (1 / 10000)) 0 i c)

/-- `_update_PWM` (`makeAMove`): stable-sort by score descending, slice
out the confusion zone, split it by label, and move the PWM by the
learning rate times the difference of the two mixes' log-PFMs.  `none`
models the `ValueError` of `labels.index` when a label class is absent. -/
def updatePWM {L : ℕ} (yTrue : List Bool) (yScore : List ℝ)
    (sites : List (List Nuc)) (lr : ℝ) (pwm : PWM L) : Option (PWM L) :=
  if (sortedLabels yTrue yScore).contains false ∧
      (sortedLabels yTrue yScore).contains true then
    some (pwm + lr • (generatePWM L (positiveMix yTrue yScore sites) -
      generatePWM L (negativeMix yTrue yScore sites)))
  else none

/-- The fixed learning-rate sequence of `damo`, tried in this order. -/
def LEARNING_RATES : List ℝ := [1.0, 0.55, 0.1]

/-- The variables reassigned by each scoring-plus-AUC pass of `damo`:
the AUC and the label/score lists returned by `_compute_AUC`, plus the
per-collection scores and best sites from `_score_sequences`. -/
structure EvalData (L : ℕ) where
  auc : ℝ
  yTrue : List Bool
  yScore : List ℝ
  positiveScores : List ℝ
  positiveSites : List (List Nuc)
  negativeScores : List ℝ
  negativeSites : List (List Nuc)

/-- The static inputs of the optimization loop: the doubled
(forward ++ reverse-complement) collections and the pooled sequence
length taken from the positive collection's encoding. -/
structure LoopEnv where
  sequenceLength : ℕ
  positiveAll : List (List Nuc)
  negativeAll : List (List Nuc)

/-- Score both collections with a candidate PWM and compute its AUC
(the body of lines 131-144 of `damo`). -/
def evalPWM {L : ℕ} (env : LoopEnv) (pwm : PWM L) : Option (EvalData L) := do
  let ps ← scoreSequences pwm env.sequenceLength env.positiveAll
  let ns ← scoreSequences pwm env.sequenceLength env.negativeAll
  let a ← computeAUC ps.1 ns.1
  some ⟨a.1, a.2.1, a.2.2, ps.1, ps.2, ns.1, ns.2⟩

/-- The iteration-start snapshot of `damo`: `pwm_0`, `auc_0`,
`y_true_0`, `y_score_0`, `sites_0`. -/
structure IterStart (L : ℕ) where
  pwm0 : PWM L
  auc0 : ℝ
  yTrue0 : List Bool
  yScore0 : List ℝ
  sites0 : List (List Nuc)

/-- The inner learning-rate loop of `damo`: for each rate, build and
score a candidate; on the first candidate whose AUC strictly exceeds
`auc_0`, assign it to `pwm` and break.  The second component returns the
variables as the loop leaves them: the last evaluated candidate's data
when no candidate is accepted (Python keeps those assignments). -/
def innerLoop {L : ℕ} (env : LoopEnv) (start : IterStart L) :
    List ℝ → EvalData L → Option (PWM L × EvalData L)
  | [], last => some (start.pwm0, last)
  | lr :: rest, _last => do
    let pwm1 ← updatePWM start.yTrue0 start.yScore0 start.sites0 lr start.pwm0
    let ev ← evalPWM env pwm1
    if start.auc0 < ev.auc then some (pwm1, ev)
    else innerLoop env start rest ev

/-- One optimization state: the current PWM and the data of its last
scoring pass. -/
structure OptState (L : ℕ) where
  pwm : PWM L
  eval : EvalData L

/-- The iteration-start snapshot taken from the current state
(lines 119-123 of `damo`). -/
def snapshot {L : ℕ} (s : OptState L) : IterStart L :=
  ⟨s.pwm, s.eval.auc, s.eval.yTrue, s.eval.yScore,
    s.eval.positiveSites ++ s.eval.negativeSites⟩

/-- The outer iteration loop of `damo`: run the learning-rate loop; if
the PWM did not change (`np.array_equal(pwm_0, pwm)`) stop, reporting
the `auc` variable as it was left — the last evaluated candidate's AUC
when the iteration accepted nothing.  The result is the returned PWM
together with the AUC reported by the final print. -/
def outerLoop {L : ℕ} (env : LoopEnv) (rates : List ℝ) :
    ℕ → OptState L → Option (PWM L × ℝ)
  | 0, s => some (s.pwm, s.eval.auc)
  | n + 1, s => do
    let r ← innerLoop env (snapshot s) rates s.eval
    if s.pwm = r.1 then some (r.1, r.2.auc)
    else outerLoop env rates n ⟨r.1, r.2⟩

/-- `damo` on in-memory sequence collections (file parsing, encoding to
tensors and device selection are external): double each collection with
reverse complements, score the seed PWM, compute the baseline AUC, and
iterate.  Returns the final PWM, the original AUC and the final
reported AUC. -/
def damo {L : ℕ} (positiveSeqs negativeSeqs : List (List Nuc))
    (pwm : PWM L) (iterations : ℕ) : Option (PWM L × ℝ × ℝ) := do
  let env : LoopEnv :=
    ⟨((positiveSeqs ++ positiveSeqs.map revComp).headD []).length,
      positiveSeqs ++ positiveSeqs.map revComp,
      negativeSeqs ++ negativeSeqs.map revComp⟩
  let ev ← evalPWM env pwm
  let r ← outerLoop env LEARNING_RATES iterations ⟨pwm, ev⟩
  some (r.1, ev.auc, r.2)

/-- Python `str.rjust(width)`: pad with spaces on the left up to
`width`. -/
def pyRjust (width : ℕ) (s : String) : String :=
  if s.length < width then
    String.mk (List.replicate (width - s.length) ' ') ++ s
  else s

/-- One output line of `main`: the four values of one row of the
iterated matrix, each formatted and right-justified to width 15, joined
by single spaces. -/
def formatRow (f : ℝ → String) (row : Fin 4 → ℝ) : String :=
  " ".intercalate (List.ofFn fun i : Fin 4 => pyRjust 15 (f (row i)))

/-- The serialization loop of `main`: `for row in pwm.T`, one line per
row of the transposed matrix, i.e. one line per motif position.  The
value formatter `f` stands for Python's `str(round(r, 9))`. -/
def pwmLines {L : ℕ} (f : ℝ → String) (pwm : PWM L) : List String :=
  List.ofFn fun j : Fin L =>
    formatRow f fun i => (Matrix.transpose (pwm : Matrix (Fin 4) (Fin L) ℝ)) j i

/-- The serialization as claimed by the spec: one line per PWM row, in
row order A, C, G, T, each line holding that row's L values. -/
def pwmLinesSpec {L : ℕ} (f : ℝ → String) (pwm : PWM L) : List String :=
  List.ofFn fun i : Fin 4 =>
    " ".intercalate (List.ofFn fun j : Fin L => pyRjust 15 (f (pwm i j)))

/-- The log-PFM as stated by the spec for the update formula: counts
with the `1e-4` pseudocount added to every cell, one normalization pass
to a probability distribution per position, elementwise natural log,
transposed to 4 by L. -/
def generatePWMSpec (L : ℕ) (sequences : List (List Nuc)) : PWM L :=
  Matrix.of fun c i =>
    Real.log (normalizePFM (pfmOf L sequences) (1 / 10000) i c)

/-- The all-zero seed PWM used by the concrete witness scenarios. -/
def pwmZ : PWM 1 := Matrix.of fun _ _ => 0

/-- Concrete loop environment for the witness scenarios: one positive
sequence A (reverse complement T) and one negative sequence C (reverse
complement G), each of length 1. -/
def envW : LoopEnv := ⟨1, [[Nuc.A], [Nuc.T]], [[Nuc.C], [Nuc.G]]⟩

/-- Concrete iteration-start snapshot: tied scores, an artificial
starting AUC of -1 (so any candidate improves). -/
def startW : IterStart 1 := ⟨pwmZ, -1, [true, false], [0, 0], [[Nuc.T], [Nuc.G]]⟩

/-- The same snapshot with starting AUC 1 (so no candidate improves). -/
def startW2 : IterStart 1 := ⟨pwmZ, 1, [true, false], [0, 0], [[Nuc.T], [Nuc.G]]⟩

/-- The candidate PWM `_update_PWM` builds from the witness snapshot
(tied scores put the confusion zone out of reach, so both mixes are
empty and the move is the identity). -/
def candW : PWM 1 :=
  pwmZ + (1 : ℝ) • (generatePWM 1 (positiveMix [true, false] [0, 0] [[Nuc.T], [Nuc.G]]) -
    generatePWM 1 (negativeMix [true, false] [0, 0] [[Nuc.T], [Nuc.G]]))

/-- The evaluation data of the zero PWM on the witness environment: all
scores 0, reverse strands win the ties, AUC 1/2. -/
def evW : EvalData 1 :=
  ⟨1 / 2, [true, false], [0, 0], [0], [[Nuc.T]], [0], [[Nuc.G]]⟩

/-- Sequence AA of the stale-AUC scenario. -/
def seqAA : List Nuc := [Nuc.A, Nuc.A]

/-- Sequence AC of the stale-AUC scenario. -/
def seqAC : List Nuc := [Nuc.A, Nuc.C]

/-- Reverse complement of AA. -/
def seqTT : List Nuc := [Nuc.T, Nuc.T]

/-- Reverse complement of AC. -/
def seqGT : List Nuc := [Nuc.G, Nuc.T]

/-- The seed PWM of the stale-AUC scenario: motif length 2, rows
A, C, G, T; the A and C entries are small multiples of ln 2, the G and
T rows are -100 so reverse strands never win. -/
def pwmC : PWM 2 :=
  Matrix.of
    ![![-(3 * Real.log 2), 0],
      ![-(3 * Real.log 2), -Real.log 2],
      ![-100, -100],
      ![-100, -100]]

/-- The loop environment of the stale-AUC scenario: positives
[AA, AA, AC], negatives [AA, AC], both doubled with their reverse
complements, sequence length 2. -/
def envC : LoopEnv :=
  ⟨2, [seqAA, seqAA, seqAC, seqTT, seqTT, seqGT], [seqAA, seqAC, seqTT, seqGT]⟩

/-- The candidate `_update_PWM` builds in the stale-AUC scenario: the
confusion zone's positive mix is [AC] and its negative mix is [AA]. -/
def candC (lr : ℝ) : PWM 2 :=
  pwmC + lr • (generatePWM 2 [seqAC] - generatePWM 2 [seqAA])

/-- Best score of AA (and its reverse complement) under the
candidate. -/
def sAA1 (lr : ℝ) : ℝ := -(3 * Real.log 2) - lr * Real.log 10001

/-- Best score of AC (and its reverse complement) under the
candidate. -/
def sAC1 (lr : ℝ) : ℝ := -(4 * Real.log 2) + lr * Real.log 10001

/-- The baseline evaluation data of the stale-AUC scenario: AUC 7/12. -/
def evC0 : EvalData 2 :=
  ⟨7 / 12, [true, true, true, false, false],
    [-(3 * Real.log 2), -(3 * Real.log 2), -(4 * Real.log 2),
      -(3 * Real.log 2), -(4 * Real.log 2)],
    [-(3 * Real.log 2), -(3 * Real.log 2), -(4 * Real.log 2)],
    [seqAA, seqAA, seqAC],
    [-(3 * Real.log 2), -(4 * Real.log 2)],
    [seqAA, seqAC]⟩

/-- The evaluation data of each candidate in the stale-AUC scenario:
AA drops below AC for every tried rate, so the AUC is 5/12. -/
def evC1 (lr : ℝ) : EvalData 2 :=
  ⟨5 / 12, [true, true, true, false, false],
    [sAA1 lr, sAA1 lr, sAC1 lr, sAA1 lr, sAC1 lr],
    [sAA1 lr, sAA1 lr, sAC1 lr], [seqAA, seqAA, seqAC],
    [sAA1 lr, sAC1 lr], [seqAA, seqAC]⟩

theorem rowsum_add {L : ℕ} (M : Fin L → Fin 4 → ℝ) (p : ℝ) (i : Fin L) :
    ∑ d : Fin 4, (M i d + p) = (∑ d : Fin 4, M i d) + 4 * p := by
  rw [Finset.sum_add_distrib, Finset.sum_const, Finset.card_univ]
  simp [mul_comm]

theorem normalizePFM_zero_eq {L : ℕ} (M : Fin L → Fin 4 → ℝ)
    (h : ∀ i, ∑ c : Fin 4, M i c = 1) : normalizePFM M 0 = M := by
  funext i c
  simp [normalizePFM, h i]

theorem rowsum_normalizePFM {L : ℕ} (M : Fin L → Fin 4 → ℝ) (p : ℝ)
    (h : ∀ i, 0 < ∑ d : Fin 4, (M i d + p)) :
    ∀ i, ∑ c : Fin 4, normalizePFM M p i c = 1 := by
  intro i
  simp only [normalizePFM]
  rw [← Finset.sum_div]
  exact div_self (ne_of_gt (h i))

theorem normalizePFM_double {L : ℕ} (C : Fin L → Fin 4 → ℝ)
    (hC : ∀ i c, 0 ≤ C i c) :
    normalizePFM (normalizePFM C (1 / 10000)) 0 = normalizePFM C (1 / 10000) := by
  apply normalizePFM_zero_eq
  apply rowsum_normalizePFM
  intro i
  apply Finset.sum_pos
  · intro d _
    have := hC i d
    linarith
  · exact Finset.univ_nonempty

/-- C8: for every L by 4 matrix with strictly positive entries whose
rows sum to 1 exactly, `__normalize_PFM` with pseudocount 0 is the
identity; hence the second normalization pass inside `__generate_PWM`,
applied to the output of the first pass (pseudocount `1e-4`) on a
nonnegative count matrix, changes nothing. -/
theorem C8_second_normalization_identity {L : ℕ} (M C : Fin L → Fin 4 → ℝ)
    (hpos : ∀ i c, 0 < M i c) (hsum : ∀ i, ∑ c : Fin 4, M i c = 1)
    (hC : ∀ i c, 0 ≤ C i c) :
    normalizePFM M 0 = M ∧
      normalizePFM (normalizePFM C (1 / 10000)) 0 = normalizePFM C (1 / 10000) := by
  refine ⟨normalizePFM_zero_eq M hsum, normalizePFM_double C hC⟩

/-- Witness for C8 at the uniform 1 by 4 distribution and the count
matrix with one observation per cell. -/
theorem C8_second_normalization_identity_witness :
    normalizePFM (fun (_ : Fin 1) (_ : Fin 4) => (1 / 4 : ℝ)) 0 =
        (fun (_ : Fin 1) (_ : Fin 4) => (1 / 4 : ℝ)) ∧
      normalizePFM (normalizePFM (fun (_ : Fin 1) (_ : Fin 4) => (1 : ℝ)) (1 / 10000)) 0 =
        normalizePFM (fun (_ : Fin 1) (_ : Fin 4) => (1 : ℝ)) (1 / 10000) :=
  C8_second_normalization_identity
    (fun _ _ => (1 / 4 : ℝ)) (fun _ _ => (1 : ℝ))
    (fun _ _ => by norm_num)
    (fun _ => by norm_num [Finset.sum_const, Finset.card_univ])
    (fun _ _ => by norm_num)

theorem generatePWM_eq_spec (L : ℕ) (sequences : List (List Nuc)) :
    generatePWM L sequences = generatePWMSpec L sequences := by
  funext c i
  show Real.log _ = Real.log _
  rw [normalizePFM_double (pfmOf L sequences) fun i c => Nat.cast_nonneg _]

/-- C5: for every positive learning rate, current PWM and labeled
scored sites (with both label classes present so the update is
defined), the candidate equals the current PWM plus the rate times the
difference of the single-pass log-PFMs of the confusion zone's
positive and negative mixes. -/
theorem C5_update_formula {L : ℕ} (yTrue : List Bool) (yScore : List ℝ)
    (sites : List (List Nuc)) (lr : ℝ) (pwm : PWM L) (hlr : 0 < lr)
    (hf : (sortedLabels yTrue yScore).contains false = true)
    (ht : (sortedLabels yTrue yScore).contains true = true) :
    updatePWM yTrue yScore sites lr pwm =
      some (pwm + lr • (generatePWMSpec L (positiveMix yTrue yScore sites) -
        generatePWMSpec L (negativeMix yTrue yScore sites))) := by
  rw [updatePWM, if_pos ⟨hf, ht⟩, generatePWM_eq_spec, generatePWM_eq_spec]

theorem argsortDesc_pair (a b : ℝ) (h : b ≤ a) : argsortDesc [a, b] = [0, 1] := by
  have h2 : List.range ([a, b].length) = [0, 1] := rfl
  unfold argsortDesc
  rw [h2]
  apply List.mergeSort_of_sorted
  refine List.pairwise_cons.2 ⟨?_, List.pairwise_singleton _ _⟩
  intro x hx
  have hx1 : x = 1 := by simpa using hx
  subst hx1
  show decide ([a, b].getD 1 0 ≤ [a, b].getD 0 0) = true
  simpa using h

theorem sortedLabels_pair (p q : Bool) (a b : ℝ) (h : b ≤ a) :
    sortedLabels [p, q] [a, b] = [p, q] := by
  unfold sortedLabels
  rw [argsortDesc_pair a b h]
  rfl

/-- Witness for C5 on a two-element input with both labels present. -/
theorem C5_update_formula_witness :
    (0 : ℝ) < 1 ∧
      (sortedLabels [true, false] [(1 : ℝ), 0]).contains false = true ∧
      (sortedLabels [true, false] [(1 : ℝ), 0]).contains true = true ∧
      updatePWM [true, false] [(1 : ℝ), 0] [[Nuc.A], [Nuc.C]] 1 pwmZ =
        some (pwmZ + (1 : ℝ) •
          (generatePWMSpec 1 (positiveMix [true, false] [(1 : ℝ), 0] [[Nuc.A], [Nuc.C]]) -
            generatePWMSpec 1 (negativeMix [true, false] [(1 : ℝ), 0] [[Nuc.A], [Nuc.C]]))) := by
  have hsl : sortedLabels [true, false] [(1 : ℝ), 0] = [true, false] :=
    sortedLabels_pair true false 1 0 (by norm_num)
  refine ⟨by norm_num, by rw [hsl]; rfl, by rw [hsl]; rfl, ?_⟩
  exact C5_update_formula [true, false] [(1 : ℝ), 0] [[Nuc.A], [Nuc.C]] 1 pwmZ
    (by norm_num) (by rw [hsl]; rfl) (by rw [hsl]; rfl)

theorem maxWithIdx_spec (v : ℝ) (rest : List ℝ) :
    ∃ m i, maxWithIdx (v :: rest) = some (m, i) ∧ i < (v :: rest).length ∧
      (v :: rest).getD i 0 = m ∧
      ∀ j, j < (v :: rest).length → (v :: rest).getD j 0 ≤ m := by
  induction rest generalizing v with
  | nil =>
    refine ⟨v, 0, rfl, by simp, rfl, ?_⟩
    intro j hj
    simp at hj
    subst hj
    rfl
  | cons w rest2 ih =>
    obtain ⟨m, i, hm, hlen, hget, hbound⟩ := ih w
    have hstep : maxWithIdx (v :: w :: rest2) =
        match maxWithIdx (w :: rest2) with
        | none => some (v, 0)
        | some (m, i) => if m > v then some (m, i + 1) else some (v, 0) := rfl
    by_cases hc : m > v
    · refine ⟨m, i + 1, ?_, ?_, ?_, ?_⟩
      · rw [hstep, hm]
        exact if_pos hc
      · simp only [List.length_cons] at hlen ⊢
        omega
      · simpa using hget
      · intro j hj
        match j with
        | 0 => exact le_of_lt hc
        | j + 1 =>
          have : j < (w :: rest2).length := by
            simp only [List.length_cons] at hj ⊢
            omega
          simpa using hbound j this
    · refine ⟨v, 0, ?_, by simp, rfl, ?_⟩
      · rw [hstep, hm]
        exact if_neg hc
      · intro j hj
        match j with
        | 0 => exact le_refl v
        | j + 1 =>
          have hj2 : j < (w :: rest2).length := by
            simp only [List.length_cons] at hj ⊢
            omega
          have := hbound j hj2
          have hmv : m ≤ v := not_lt.mp hc
          calc (v :: w :: rest2).getD (j + 1) 0 = (w :: rest2).getD j 0 := by simp
            _ ≤ m := this
            _ ≤ v := hmv

/-- C2: for a sequence of length N scanned in one orientation, the
Conv1d-plus-MaxPool1d model returns exactly one (score, position) pair;
the score is the correlation of the PWM with the one-hot window at that
position, it dominates every window start in [0, N-L], and the length-L
slice of the sequence at that position (the extracted site) attains it. -/
theorem C2_model_computes_argmax {L N : ℕ} (pwm : PWM L) (x : List Nuc)
    (h0 : 0 < L) (hLN : L ≤ N) (hx : x.length = N) :
    ∃ s p, modelApply pwm N x = some [(s, p)] ∧ p ≤ N - L ∧
      s = convOut pwm x p ∧ (∀ q, q ≤ N - L → convOut pwm x q ≤ s) ∧
      (extractSite [x] 0 p L).length = L := by
  have hcv : convSeq pwm x = some ((List.range (N - L + 1)).map (convOut pwm x)) := by
    rw [convSeq, if_pos ⟨hx ▸ hLN, h0⟩, hx]
  set cv := (List.range (N - L + 1)).map (convOut pwm x) with hcvdef
  have hcvlen : cv.length = N - L + 1 := by simp [hcvdef]
  have hcvne : ∃ c0 cr, cv = c0 :: cr := by
    cases hc : cv with
    | nil => rw [hc] at hcvlen; simp at hcvlen
    | cons c0 cr => exact ⟨c0, cr, rfl⟩
  obtain ⟨c0, cr, hcons⟩ := hcvne
  obtain ⟨m, i, hmi, hilen, higet, hbound⟩ := maxWithIdx_spec c0 cr
  rw [← hcons] at hmi hilen higet hbound
  have hgetD : ∀ j, j < N - L + 1 → cv.getD j 0 = convOut pwm x j := by
    intro j hj
    have hj2 : j < cv.length := by omega
    rw [List.getD_eq_getElem cv 0 hj2]
    simp [hcvdef]
  have hiNL : i < N - L + 1 := by omega
  refine ⟨m, i, ?_, by omega, ?_, ?_, ?_⟩
  · rw [modelApply, hcv]
    show maxPool (N - L + 1) cv = some [(m, i)]
    rw [maxPool, if_pos ⟨by omega, by omega⟩]
    have hr1 : cv.length - (N - L + 1) + 1 = 1 := by omega
    have htake : (cv.drop 0).take (N - L + 1) = cv := by
      rw [List.drop_zero, ← hcvlen, List.take_length]
    rw [hr1]
    have hrange1 : List.range 1 = [0] := rfl
    simp only [hrange1, List.map_cons, List.map_nil, htake, hmi]
    rw [Nat.zero_add]
  · rw [← hgetD i hiNL, higet]
  · intro q hq
    rw [← hgetD q (by omega)]
    exact hbound q (by omega)
  · have hpL : L ≤ x.length - i := by omega
    simp [extractSite, hx]
    omega

/-- Witness for C2: length-1 sequence, motif length 1, zero PWM. -/
theorem C2_model_computes_argmax_witness :
    0 < 1 ∧ 1 ≤ 1 ∧ ([Nuc.A] : List Nuc).length = 1 ∧
      (∃ s p, modelApply pwmZ 1 [Nuc.A] = some [(s, p)] ∧ p ≤ 1 - 1 ∧
        s = convOut pwmZ [Nuc.A] p ∧
        (∀ q, q ≤ 1 - 1 → convOut pwmZ [Nuc.A] q ≤ s) ∧
        (extractSite [[Nuc.A]] 0 p 1).length = 1) :=
  ⟨by decide, by decide, by decide,
    C2_model_computes_argmax pwmZ [Nuc.A] (by decide) (by decide) (by decide)⟩

/-- C10: with the pooling window taken from the positive collection's
length N, a sequence of length at least L yields exactly one
(score, site) pair if and only if its length is exactly N; a shorter
sequence makes the model undefined (a torch shape error), and a longer
one yields extra outputs that misalign the downstream pairing. -/
theorem C10_one_score_iff_same_length {L N : ℕ} (pwm : PWM L) (x : List Nuc)
    (h0 : 0 < L) (hLN : L ≤ N) (hLx : L ≤ x.length) :
    ((∃ outs, modelApply pwm N x = some outs ∧ outs.length = 1) ↔ x.length = N) ∧
      (x.length < N → modelApply pwm N x = none) := by
  have hcv : convSeq pwm x = some ((List.range (x.length - L + 1)).map (convOut pwm x)) := by
    rw [convSeq, if_pos ⟨hLx, h0⟩]
  set cv := (List.range (x.length - L + 1)).map (convOut pwm x) with hcvdef
  have hcvlen : cv.length = x.length - L + 1 := by simp [hcvdef]
  have hMA : modelApply pwm N x = maxPool (N - L + 1) cv := by
    rw [modelApply, hcv]
    rfl
  by_cases hNx : N ≤ x.length
  · have hpool : maxPool (N - L + 1) cv =
        some ((List.range (cv.length - (N - L + 1) + 1)).map fun t =>
          match maxWithIdx ((cv.drop t).take (N - L + 1)) with
          | some (m, i) => (m, t + i)
          | none => (0, 0)) := by
      rw [maxPool, if_pos ⟨by omega, by omega⟩]
    constructor
    · constructor
      · rintro ⟨outs, houts, hlen1⟩
        rw [hMA, hpool] at houts
        have : outs.length = cv.length - (N - L + 1) + 1 := by
          rw [← Option.some_inj.mp houts]
          simp
        omega
      · intro hxN
        refine ⟨_, by rw [hMA, hpool], ?_⟩
        simp only [List.length_map, List.length_range]
        omega
    · intro hlt
      omega
  · constructor
    · constructor
      · rintro ⟨outs, houts, hlen1⟩
        rw [hMA, maxPool, if_neg] at houts
        · exact absurd houts (by simp)
        · intro hcontra
          omega
      · intro hxN
        omega
    · intro hlt
      rw [hMA, maxPool, if_neg]
      intro hcontra
      omega

/-- Witness for C10: motif length 1, positive length 2, a sequence of
length 1 (shorter than the positive length). -/
theorem C10_one_score_iff_same_length_witness :
    0 < 1 ∧ 1 ≤ 2 ∧ 1 ≤ ([Nuc.A] : List Nuc).length ∧
      ((∃ outs, modelApply pwmZ 2 [Nuc.A] = some outs ∧ outs.length = 1) ↔
        ([Nuc.A] : List Nuc).length = 2) ∧
      (([Nuc.A] : List Nuc).length < 2 → modelApply pwmZ 2 [Nuc.A] = none) :=
  ⟨by decide, by decide, by decide,
    (C10_one_score_iff_same_length pwmZ [Nuc.A] (by decide) (by decide) (by decide)).1,
    (C10_one_score_iff_same_length pwmZ [Nuc.A] (by decide) (by decide) (by decide)).2⟩

/-- Counterexample to C4: with exactly equal strand scores the merge
reports the reverse strand's site, not the forward strand's. -/
theorem C4_tie_goes_to_reverse_counterexample :
    getBestSite ((1 : ℝ), 0, 0) ((1 : ℝ), 0, 1) [[Nuc.A, Nuc.C], [Nuc.G, Nuc.T]] 2 =
        (1, [Nuc.G, Nuc.T]) ∧
      ([Nuc.G, Nuc.T] : List Nuc) ≠ [Nuc.A, Nuc.C] := by
  constructor
  · rw [getBestSite, if_neg (lt_irrefl (1 : ℝ))]
    rfl
  · decide

/-- C4 as amended: the reported score and site come from the strand
with the strictly greater score, and an exact tie is resolved in favor
of the reverse strand. -/
theorem C4_best_site_merge (fwd rev : ℝ × ℕ × ℕ) (sequences : List (List Nuc))
    (motifLength : ℕ) :
    (rev.1 < fwd.1 → getBestSite fwd rev sequences motifLength =
      (fwd.1, extractSite sequences fwd.2.2 fwd.2.1 motifLength)) ∧
    (fwd.1 ≤ rev.1 → getBestSite fwd rev sequences motifLength =
      (rev.1, extractSite sequences rev.2.2 rev.2.1 motifLength)) := by
  constructor
  · intro h
    rw [getBestSite, if_pos h]
  · intro h
    rw [getBestSite, if_neg (not_lt.mpr h)]

/-- Witness for C4's amended statement: one strictly-greater forward
case and one exact-tie case. -/
theorem C4_best_site_merge_witness :
    ((0 : ℝ) < 1 ∧ getBestSite ((1 : ℝ), 0, 0) ((0 : ℝ), 0, 1) [[Nuc.A], [Nuc.T]] 1 =
      (1, extractSite [[Nuc.A], [Nuc.T]] 0 0 1)) ∧
    ((1 : ℝ) ≤ 1 ∧ getBestSite ((1 : ℝ), 0, 0) ((1 : ℝ), 0, 1) [[Nuc.A], [Nuc.T]] 1 =
      (1, extractSite [[Nuc.A], [Nuc.T]] 1 0 1)) :=
  ⟨⟨by norm_num,
      (C4_best_site_merge ((1 : ℝ), 0, 0) ((0 : ℝ), 0, 1) [[Nuc.A], [Nuc.T]] 1).1
        (by norm_num)⟩,
    ⟨le_refl 1,
      (C4_best_site_merge ((1 : ℝ), 0, 0) ((1 : ℝ), 0, 1) [[Nuc.A], [Nuc.T]] 1).2
        (le_refl 1)⟩⟩

/-- Counterexample to C9: on a 4 by 1 PWM the program emits one line of
four fields (a row of the transpose), while the claim describes four
lines (one per PWM row); the two serializations differ. -/
theorem C9_transposed_counterexample :
    (pwmLines (fun _ => "v") pwmZ).length = 1 ∧
      (pwmLinesSpec (fun _ => "v") pwmZ).length = 4 ∧
      pwmLines (fun _ => "v") pwmZ ≠ pwmLinesSpec (fun _ => "v") pwmZ := by
  refine ⟨by simp [pwmLines], by simp [pwmLinesSpec], ?_⟩
  intro h
  have := congrArg List.length h
  simp [pwmLines, pwmLinesSpec] at this

/-- C9 as amended: the serialization emits one line per motif position
(L lines, the rows of the transposed matrix); line j holds the four
values A, C, G, T of column j, each formatted and right-justified to
width 15, joined by single spaces; right-justification pads with
spaces on the left up to width 15 and never truncates. -/
theorem C9_serialization_shape {L : ℕ} (f : ℝ → String) (pwm : PWM L) :
    (pwmLines f pwm).length = L ∧
      (∀ j : Fin L, (pwmLines f pwm).getD (j : ℕ) "" =
        " ".intercalate [pyRjust 15 (f (pwm 0 j)), pyRjust 15 (f (pwm 1 j)),
          pyRjust 15 (f (pwm 2 j)), pyRjust 15 (f (pwm 3 j))]) ∧
      (∀ s : String, (pyRjust 15 s).length = max 15 s.length) := by
  refine ⟨by simp [pwmLines], ?_, ?_⟩
  · intro j
    have hj : (j : ℕ) < (pwmLines f pwm).length := by simp [pwmLines]
    rw [List.getD_eq_getElem _ _ hj]
    simp only [pwmLines, List.getElem_ofFn]
    rw [formatRow]
    have h4 : ∀ g : Fin 4 → String, List.ofFn g = [g 0, g 1, g 2, g 3] := by
      intro g
      simp [List.ofFn_succ]
      rfl
    rw [h4]
    rfl
  · intro s
    rw [pyRjust]
    by_cases hc : s.length < 15
    · rw [if_pos hc]
      have h1 : (String.mk (List.replicate (15 - s.length) ' ') ++ s).length =
          (15 - s.length) + s.length := by
        simp [String.length_append]
      rw [h1]
      omega
    · rw [if_neg hc]
      omega

theorem zip_replicate_label (b : Bool) (l : List ℝ) :
    (List.replicate l.length b).zip l = l.map fun v => (b, v) := by
  induction l with
  | nil => rfl
  | cons v rest ih => simp [List.replicate_succ, ih]

theorem zip_labels_eq (ps ns : List ℝ) :
    (List.replicate ps.length true ++ List.replicate ns.length false).zip (ps ++ ns) =
      (ps.map fun p => (true, p)) ++ (ns.map fun n => (false, n)) := by
  induction ps with
  | nil =>
    simp only [List.length_nil, List.replicate_zero, List.nil_append, List.map_nil]
    exact zip_replicate_label false ns
  | cons p rest ih =>
    simp [List.replicate_succ, ih]

theorem filterMap_label_pair (b c : Bool) (l : List ℝ) :
    (l.map fun v => (c, v)).filterMap (fun ls => if ls.1 = b then some ls.2 else none) =
      if c = b then l else [] := by
  induction l with
  | nil => simp
  | cons v rest ih =>
    simp only [List.map_cons, List.filterMap_cons]
    by_cases h : c = b
    · simp [h] at ih ⊢
      simp [ih]
    · simp [h] at ih ⊢
      try simp [ih]

theorem computeAUC_eq_none_iff (ps ns : List ℝ) :
    computeAUC ps ns = none ↔ ps = [] ∨ ns = [] := by
  have hpos : ((List.replicate ps.length true ++ List.replicate ns.length false).zip
      (ps ++ ns)).filterMap (fun ls => if ls.1 = true then some ls.2 else none) = ps := by
    rw [zip_labels_eq, List.filterMap_append, filterMap_label_pair, filterMap_label_pair]
    simp
  have hneg : ((List.replicate ps.length true ++ List.replicate ns.length false).zip
      (ps ++ ns)).filterMap (fun ls => if ls.1 = false then some ls.2 else none) = ns := by
    rw [zip_labels_eq, List.filterMap_append, filterMap_label_pair, filterMap_label_pair]
    simp
  rw [computeAUC, rocAucScore]
  simp only [hpos, hneg]
  by_cases h : ps = [] ∨ ns = []
  · simp [h]
  · simp [h]

theorem scoreSequences_nil {L : ℕ} (pwm : PWM L) (sequenceLength : ℕ) :
    scoreSequences pwm sequenceLength [] = some ([], []) := rfl

theorem evalPWM_no_positives {L : ℕ} (env : LoopEnv) (pwm : PWM L)
    (h : env.positiveAll = []) : evalPWM env pwm = none := by
  rw [evalPWM, h, scoreSequences_nil]
  cases hn : scoreSequences pwm env.sequenceLength env.negativeAll with
  | none => rfl
  | some ns =>
    have : computeAUC ([] : List ℝ) ns.1 = none :=
      (computeAUC_eq_none_iff [] ns.1).2 (Or.inl rfl)
    simp [hn, this]

theorem evalPWM_no_negatives {L : ℕ} (env : LoopEnv) (pwm : PWM L)
    (h : env.negativeAll = []) : evalPWM env pwm = none := by
  rw [evalPWM, h]
  cases hp : scoreSequences pwm env.sequenceLength env.positiveAll with
  | none => rfl
  | some ps =>
    have : computeAUC ps.1 ([] : List ℝ) = none :=
      (computeAUC_eq_none_iff ps.1 []).2 (Or.inr rfl)
    simp [hp, scoreSequences_nil, this]

/-- C7: the AUC of a score pair with an empty class is an error
(`none`), never a default value, and the optimization surfaces it: with
an empty positive or negative collection `damo` returns `none`. -/
theorem C7_degenerate_auc_is_error :
    (∀ ps ns : List ℝ, computeAUC ps ns = none ↔ ps = [] ∨ ns = []) ∧
      (∀ (L : ℕ) (positiveSeqs negativeSeqs : List (List Nuc)) (pwm : PWM L)
        (iterations : ℕ), positiveSeqs = [] ∨ negativeSeqs = [] →
        damo positiveSeqs negativeSeqs pwm iterations = none) := by
  refine ⟨computeAUC_eq_none_iff, ?_⟩
  intro L pos neg pwm iters h
  rw [damo]
  rcases h with h | h
  · subst h
    rw [evalPWM_no_positives _ pwm rfl]
    rfl
  · subst h
    rw [evalPWM_no_negatives _ pwm rfl]
    rfl

/-- Witness for C7: empty positive collection against one negative
sequence. -/
theorem C7_degenerate_auc_is_error_witness :
    (([] : List (List Nuc)) = [] ∨ ([[Nuc.A]] : List (List Nuc)) = []) ∧
      damo ([] : List (List Nuc)) [[Nuc.A]] pwmZ 5 = none :=
  ⟨Or.inl rfl,
    C7_degenerate_auc_is_error.2 1 [] [[Nuc.A]] pwmZ 5 (Or.inl rfl)⟩

theorem leIdx_trans (ys : List ℝ) : ∀ a b c : ℕ,
    leIdx ys a b → leIdx ys b c → leIdx ys a c := by
  intro a b c hab hbc
  simp only [leIdx, decide_eq_true_eq] at *
  exact le_trans hbc hab

theorem leIdx_total (ys : List ℝ) : ∀ a b : ℕ, leIdx ys a b || leIdx ys b a := by
  intro a b
  simp only [leIdx, Bool.or_eq_true, decide_eq_true_eq]
  exact le_total _ _

theorem argsortDesc_perm (ys : List ℝ) :
    (argsortDesc ys).Perm (List.range ys.length) :=
  List.mergeSort_perm _ _

theorem argsortDesc_sorted (ys : List ℝ) :
    (argsortDesc ys).Pairwise fun i j => ys.getD j 0 ≤ ys.getD i 0 := by
  have h := @List.sorted_mergeSort ℕ (leIdx ys) (leIdx_trans ys) (leIdx_total ys)
    (List.range ys.length)
  exact h.imp fun hb => by simpa [leIdx] using hb

theorem pair_sublist_range (i j n : ℕ) (hij : i < j) (hj : j < n) :
    List.Sublist [i, j] (List.range n) := by
  have hsplit : List.range n = (List.range n).take (j + 1) ++ (List.range n).drop (j + 1) :=
    (List.take_append_drop _ _).symm
  have htake : (List.range n).take (j + 1) = List.range (j + 1) := by
    rw [List.take_range]
    congr 1
    omega
  have hij2 : List.Sublist [i, j] (List.range (j + 1)) := by
    rw [List.range_succ]
    have h1 : List.Sublist [i] (List.range j) :=
      List.singleton_sublist.mpr (List.mem_range.mpr hij)
    exact List.Sublist.append h1 (List.Sublist.refl [j])
  have h2 : List.Sublist [i, j]
      (List.range (j + 1) ++ (List.range n).drop (j + 1)) :=
    hij2.trans (List.sublist_append_left _ _)
  have h3 : List.range (j + 1) ++ (List.range n).drop (j + 1) = List.range n := by
    rw [← htake]
    exact hsplit.symm
  exact h3 ▸ h2

theorem argsortDesc_stable (ys : List ℝ) (i j : ℕ) (hij : i < j)
    (hj : j < ys.length) (heq : ys.getD i 0 = ys.getD j 0) :
    List.Sublist [i, j] (argsortDesc ys) := by
  apply List.pair_sublist_mergeSort (leIdx_trans ys) (leIdx_total ys)
  · simp only [leIdx, decide_eq_true_eq]
    rw [heq]
  · exact pair_sublist_range i j ys.length hij hj

theorem indexOf_le_of_getD (l : List Bool) (b : Bool) :
    ∀ k, k < l.length → l.getD k (!b) = b → l.indexOf b ≤ k := by
  induction l with
  | nil => intro k hk; simp at hk
  | cons x rest ih =>
    intro k hk hget
    match k with
    | 0 =>
      have hx : x = b := by simpa using hget
      simp [hx, List.indexOf_cons]
    | k + 1 =>
      by_cases hx : x = b
      · simp [hx, List.indexOf_cons]
      · have hrest := ih k (by simpa using hk) (by simpa using hget)
        have hbeq : (x == b) = false := by
          simp [hx]
        simp [List.indexOf_cons, hbeq]
        omega

theorem ixFirstNegative_le (yTrue : List Bool) (yScore : List ℝ) (k : ℕ)
    (hk : k < (sortedLabels yTrue yScore).length)
    (h : (sortedLabels yTrue yScore).getD k true = false) :
    ixFirstNegative yTrue yScore ≤ k := by
  exact indexOf_le_of_getD _ false k hk h

theorem lt_ixLastPositive (yTrue : List Bool) (yScore : List ℝ) (k : ℕ)
    (hk : k < (sortedLabels yTrue yScore).length)
    (h : (sortedLabels yTrue yScore).getD k false = true) :
    k < ixLastPositive yTrue yScore := by
  set l := sortedLabels yTrue yScore with hl
  have hb : l.length - 1 - k < l.reverse.length := by
    simp only [List.length_reverse]
    omega
  have hrev : l.reverse.getD (l.length - 1 - k) (!true) = true := by
    rw [List.getD_eq_getElem _ _ hb, List.getElem_reverse]
    have hik : l.length - 1 - (l.length - 1 - k) = k := by omega
    simp only [hik]
    rw [List.getD_eq_getElem _ _ hk] at h
    exact h
  have hidx := indexOf_le_of_getD l.reverse true (l.length - 1 - k) hb hrev
  rw [ixLastPositive, ← hl]
  omega

theorem map_getD_range (l : List Bool) :
    (List.range l.length).map (fun i => l.getD i false) = l := by
  apply List.ext_getElem
  · simp
  · intro i h1 h2
    simp only [List.getElem_map, List.getElem_range]
    exact List.getD_eq_getElem l false h2

theorem sortedLabels_perm (yTrue : List Bool) (yScore : List ℝ)
    (hlen : yTrue.length = yScore.length) :
    (sortedLabels yTrue yScore).Perm yTrue := by
  have h1 := (argsortDesc_perm yScore).map fun ix => yTrue.getD ix false
  rw [← hlen, map_getD_range] at h1
  exact h1

theorem updatePWM_succeeds {L : ℕ} (yTrue : List Bool) (yScore : List ℝ)
    (sites : List (List Nuc)) (lr : ℝ) (pwm : PWM L)
    (hlen : yTrue.length = yScore.length) (hf : false ∈ yTrue) (ht : true ∈ yTrue) :
    ∃ pwm2, updatePWM yTrue yScore sites lr pwm = some pwm2 := by
  have hperm := sortedLabels_perm yTrue yScore hlen
  have hf2 : false ∈ sortedLabels yTrue yScore := hperm.mem_iff.mpr hf
  have ht2 : true ∈ sortedLabels yTrue yScore := hperm.mem_iff.mpr ht
  have hcond : ((sortedLabels yTrue yScore).contains false = true) ∧
      ((sortedLabels yTrue yScore).contains true = true) :=
    ⟨by simpa using hf2, by simpa using ht2⟩
  refine ⟨pwm + lr • (generatePWM L (positiveMix yTrue yScore sites) -
    generatePWM L (negativeMix yTrue yScore sites)), ?_⟩
  rw [updatePWM, if_pos hcond]

/-- Counterexample to C3: two sequences with identical scores, the
first positive and the second negative.  The stable descending sort
keeps the positive (original index 0) before the negative (index 1),
so the first negative is at sorted rank 1 while one past the last
positive is also 1: the confusion zone is empty and neither tied
sequence falls inside it, and in particular the tied positive at
sorted rank 0 is outside the zone. -/
theorem C3_tied_pair_counterexample :
    argsortDesc [(5 : ℝ), 5] = [0, 1] ∧
      ixFirstNegative [true, false] [(5 : ℝ), 5] = 1 ∧
      ixLastPositive [true, false] [(5 : ℝ), 5] = 1 ∧
      confusionZone [true, false] [(5 : ℝ), 5] [[Nuc.A], [Nuc.C]] = [] ∧
      ¬ ixFirstNegative [true, false] [(5 : ℝ), 5] ≤ 0 := by
  have hsort : argsortDesc [(5 : ℝ), 5] = [0, 1] :=
    argsortDesc_pair 5 5 (le_refl 5)
  have hsl : sortedLabels [true, false] [(5 : ℝ), 5] = [true, false] :=
    sortedLabels_pair true false 5 5 (le_refl 5)
  have hfn : ixFirstNegative [true, false] [(5 : ℝ), 5] = 1 := by
    rw [ixFirstNegative, hsl]
    rfl
  have hlp : ixLastPositive [true, false] [(5 : ℝ), 5] = 1 := by
    rw [ixLastPositive, hsl]
    rfl
  refine ⟨hsort, hfn, hlp, ?_, by omega⟩
  rw [confusionZone, hfn, hlp]
  simp

/-- C3 as amended: the indices are a stable descending sort of the
scores (a permutation, sorted by score descending, keeping the
original order on tied scores), the confusion zone is the slice from
the first negative to one past the last positive, every negative's
sorted rank is at least `ix_first_negative` and every positive's
sorted rank is below `ix_last_positive` (so a tied positive/negative
pair satisfies the one-sided bounds, though the zone may exclude both),
and the update succeeds whenever both label classes are present. -/
theorem C3_stable_sort_zone (yTrue : List Bool) (yScore : List ℝ)
    (sites : List (List Nuc)) (lr : ℝ) {L : ℕ} (pwm : PWM L) :
    (argsortDesc yScore).Perm (List.range yScore.length) ∧
      ((argsortDesc yScore).Pairwise fun i j => yScore.getD j 0 ≤ yScore.getD i 0) ∧
      (∀ i j, i < j → j < yScore.length → yScore.getD i 0 = yScore.getD j 0 →
        List.Sublist [i, j] (argsortDesc yScore)) ∧
      (∀ k, k < (sortedLabels yTrue yScore).length →
        ((sortedLabels yTrue yScore).getD k true = false →
          ixFirstNegative yTrue yScore ≤ k) ∧
        ((sortedLabels yTrue yScore).getD k false = true →
          k < ixLastPositive yTrue yScore)) ∧
      (yTrue.length = yScore.length → false ∈ yTrue → true ∈ yTrue →
        ∃ pwm2, updatePWM yTrue yScore sites lr pwm = some pwm2) := by
  refine ⟨argsortDesc_perm yScore, argsortDesc_sorted yScore,
    fun i j hij hj heq => argsortDesc_stable yScore i j hij hj heq,
    fun k hk => ⟨fun h => ixFirstNegative_le yTrue yScore k hk h,
      fun h => lt_ixLastPositive yTrue yScore k hk h⟩,
    fun hlen hf ht => updatePWM_succeeds yTrue yScore sites lr pwm hlen hf ht⟩

/-- Witness for C3's amended statement on the tied two-element input. -/
theorem C3_stable_sort_zone_witness :
    (0 < 1 ∧ 1 < ([(5 : ℝ), 5] : List ℝ).length ∧
      ([(5 : ℝ), 5] : List ℝ).getD 0 0 = ([(5 : ℝ), 5] : List ℝ).getD 1 0 ∧
      List.Sublist [0, 1] (argsortDesc [(5 : ℝ), 5])) ∧
    (1 < (sortedLabels [true, false] [(5 : ℝ), 5]).length ∧
      (sortedLabels [true, false] [(5 : ℝ), 5]).getD 1 true = false ∧
      ixFirstNegative [true, false] [(5 : ℝ), 5] ≤ 1) ∧
    (0 < (sortedLabels [true, false] [(5 : ℝ), 5]).length ∧
      (sortedLabels [true, false] [(5 : ℝ), 5]).getD 0 false = true ∧
      0 < ixLastPositive [true, false] [(5 : ℝ), 5]) ∧
    (([true, false] : List Bool).length = ([(5 : ℝ), 5] : List ℝ).length ∧
      false ∈ [true, false] ∧ true ∈ [true, false] ∧
      ∃ pwm2, updatePWM [true, false] [(5 : ℝ), 5] [[Nuc.A], [Nuc.C]] 1 pwmZ = some pwm2) := by
  have hsl : sortedLabels [true, false] [(5 : ℝ), 5] = [true, false] :=
    sortedLabels_pair true false 5 5 (le_refl 5)
  have hthm := C3_stable_sort_zone [true, false] [(5 : ℝ), 5] [[Nuc.A], [Nuc.C]] 1 pwmZ
  have hlen1 : (1 : ℕ) < (sortedLabels [true, false] [(5 : ℝ), 5]).length := by
    rw [hsl]
    decide
  have hlen0 : (0 : ℕ) < (sortedLabels [true, false] [(5 : ℝ), 5]).length := by
    rw [hsl]
    decide
  have hget1 : (sortedLabels [true, false] [(5 : ℝ), 5]).getD 1 true = false := by
    rw [hsl]
    rfl
  have hget0 : (sortedLabels [true, false] [(5 : ℝ), 5]).getD 0 false = true := by
    rw [hsl]
    rfl
  refine ⟨⟨by decide, by decide, rfl, hthm.2.2.1 0 1 (by decide) (by decide) rfl⟩,
    ⟨hlen1, hget1, (hthm.2.2.2.1 1 hlen1).1 hget1⟩,
    ⟨hlen0, hget0, (hthm.2.2.2.1 0 hlen0).2 hget0⟩,
    ⟨rfl, by decide, by decide, hthm.2.2.2.2 rfl (by decide) (by decide)⟩⟩

theorem convOut_pwmZ (x : List Nuc) (p : ℕ) : convOut pwmZ x p = 0 := by
  simp [convOut, pwmZ]

theorem modelApply_pwmZ (x : List Nuc) (hx : x.length = 1) :
    modelApply pwmZ 1 x = some [((0 : ℝ), 0)] := by
  rw [modelApply, convSeq, if_pos ⟨by omega, by decide⟩, hx]
  have hr : List.range (1 - 1 + 1) = [0] := rfl
  rw [hr]
  show maxPool (1 - 1 + 1) [convOut pwmZ x 0] = _
  rw [convOut_pwmZ]
  rfl

theorem getBestSite_tie_eval (sequences : List (List Nuc)) (i1 p1 i2 p2 L : ℕ)
    (v : ℝ) :
    getBestSite (v, p1, i1) (v, p2, i2) sequences L =
      (v, extractSite sequences i2 p2 L) := by
  rw [getBestSite, if_neg (lt_irrefl v)]

theorem scoreSequences_envW_pos :
    scoreSequences pwmZ 1 [[Nuc.A], [Nuc.T]] = some ([0], [[Nuc.T]]) := by
  have h1 : modelApply pwmZ 1 [Nuc.A] = some [((0 : ℝ), 0)] := modelApply_pwmZ _ rfl
  have h2 : modelApply pwmZ 1 [Nuc.T] = some [((0 : ℝ), 0)] := modelApply_pwmZ _ rfl
  have hgb : getBestSite ((0 : ℝ), 0, 0) ((0 : ℝ), 0, 1) [[Nuc.A], [Nuc.T]] 1 =
      (0, [Nuc.T]) := by
    rw [getBestSite_tie_eval]
    rfl
  rw [scoreSequences]
  simp only [List.mapM_cons, List.mapM_nil, h1, h2, Option.pure_def, Option.bind_eq_bind,
    Option.some_bind]
  norm_num
  have hX : (List.take 1 ([(0 : ℝ), 0].zip ([0, 0].zip (List.range 2)))).zip
      [((0 : ℝ), 0, 1)] = [(((0 : ℝ), 0, 0), ((0 : ℝ), 0, 1))] := rfl
  simp only [hX, List.map_cons, List.map_nil, Function.comp_apply]
  rw [hgb]
  constructor <;> rfl

theorem scoreSequences_envW_neg :
    scoreSequences pwmZ 1 [[Nuc.C], [Nuc.G]] = some ([0], [[Nuc.G]]) := by
  have h1 : modelApply pwmZ 1 [Nuc.C] = some [((0 : ℝ), 0)] := modelApply_pwmZ _ rfl
  have h2 : modelApply pwmZ 1 [Nuc.G] = some [((0 : ℝ), 0)] := modelApply_pwmZ _ rfl
  have hgb : getBestSite ((0 : ℝ), 0, 0) ((0 : ℝ), 0, 1) [[Nuc.C], [Nuc.G]] 1 =
      (0, [Nuc.G]) := by
    rw [getBestSite_tie_eval]
    rfl
  rw [scoreSequences]
  simp only [List.mapM_cons, List.mapM_nil, h1, h2, Option.pure_def, Option.bind_eq_bind,
    Option.some_bind]
  norm_num
  have hX : (List.take 1 ([(0 : ℝ), 0].zip ([0, 0].zip (List.range 2)))).zip
      [((0 : ℝ), 0, 1)] = [(((0 : ℝ), 0, 0), ((0 : ℝ), 0, 1))] := rfl
  simp only [hX, List.map_cons, List.map_nil, Function.comp_apply]
  rw [hgb]
  constructor <;> rfl

theorem pairCredit_self (v : ℝ) : pairCredit v v = 1 / 2 := by
  rw [pairCredit, if_neg (lt_irrefl v), if_pos rfl]

theorem computeAUC_zeros : computeAUC [(0 : ℝ)] [(0 : ℝ)] =
    some (1 / 2, [true, false], [(0 : ℝ), 0]) := by
  have hne : ¬ (([(0 : ℝ)] : List ℝ) = [] ∨ ([(0 : ℝ)] : List ℝ) = []) := by
    simp
  have hca : computeAUC [(0 : ℝ)] [(0 : ℝ)] =
      (rocAucScore [true, false] [(0 : ℝ), 0]).map
        (fun a => (a, [true, false], [(0 : ℝ), 0])) := rfl
  have hroc : rocAucScore [true, false] [(0 : ℝ), 0] =
      if ([(0 : ℝ)] : List ℝ) = [] ∨ ([(0 : ℝ)] : List ℝ) = [] then none
      else some ((([(0 : ℝ)].map fun p =>
          ([(0 : ℝ)].map fun n => pairCredit p n).sum).sum) /
        ((([(0 : ℝ)] : List ℝ).length : ℝ) * (([(0 : ℝ)] : List ℝ).length : ℝ))) := rfl
  rw [hca, hroc, if_neg hne]
  simp [pairCredit_self]

theorem evalPWM_pwmZ : evalPWM envW pwmZ = some evW := by
  rw [evalPWM]
  simp only [envW, scoreSequences_envW_pos, scoreSequences_envW_neg,
    Option.bind_eq_bind, Option.some_bind, computeAUC_zeros]
  rfl

theorem updatePWM_startW (lr : ℝ) :
    updatePWM [true, false] [(0 : ℝ), 0] [[Nuc.T], [Nuc.G]] lr pwmZ =
      some (pwmZ + lr •
        (generatePWM 1 (positiveMix [true, false] [(0 : ℝ), 0] [[Nuc.T], [Nuc.G]]) -
          generatePWM 1 (negativeMix [true, false] [(0 : ℝ), 0] [[Nuc.T], [Nuc.G]]))) := by
  have hsl : sortedLabels [true, false] [(0 : ℝ), 0] = [true, false] :=
    sortedLabels_pair true false 0 0 (le_refl 0)
  rw [updatePWM, if_pos ⟨by rw [hsl]; rfl, by rw [hsl]; rfl⟩]

theorem candW_eq_pwmZ : candW = pwmZ := by
  have hsl : sortedLabels [true, false] [(0 : ℝ), 0] = [true, false] :=
    sortedLabels_pair true false 0 0 (le_refl 0)
  have hfn : ixFirstNegative [true, false] [(0 : ℝ), 0] = 1 := by
    rw [ixFirstNegative, hsl]
    rfl
  have hlp : ixLastPositive [true, false] [(0 : ℝ), 0] = 1 := by
    rw [ixLastPositive, hsl]
    rfl
  have hzone : confusionZone [true, false] [(0 : ℝ), 0] [[Nuc.T], [Nuc.G]] = [] := by
    rw [confusionZone, hfn, hlp]
    simp
  have hpm : positiveMix [true, false] [(0 : ℝ), 0] [[Nuc.T], [Nuc.G]] = [] := by
    rw [positiveMix, hzone]
    rfl
  have hnm : negativeMix [true, false] [(0 : ℝ), 0] [[Nuc.T], [Nuc.G]] = [] := by
    rw [negativeMix, hzone]
    rfl
  rw [candW, hpm, hnm]
  simp

theorem innerLoop_nil {L : ℕ} (env : LoopEnv) (start : IterStart L)
    (last : EvalData L) : innerLoop env start [] last = some (start.pwm0, last) := rfl

theorem innerLoop_cons {L : ℕ} (env : LoopEnv) (start : IterStart L) (lr : ℝ)
    (rest : List ℝ) (last : EvalData L) :
    innerLoop env start (lr :: rest) last =
      (updatePWM start.yTrue0 start.yScore0 start.sites0 lr start.pwm0).bind fun pwm1 =>
        (evalPWM env pwm1).bind fun ev =>
          if start.auc0 < ev.auc then some (pwm1, ev)
          else innerLoop env start rest ev := rfl

theorem outerLoop_succ {L : ℕ} (env : LoopEnv) (rates : List ℝ) (n : ℕ)
    (s : OptState L) :
    outerLoop env rates (n + 1) s =
      (innerLoop env (snapshot s) rates s.eval).bind fun r =>
        if s.pwm = r.1 then some (r.1, r.2.auc)
        else outerLoop env rates n ⟨r.1, r.2⟩ := rfl

/-- C1: the learning rates are 1.0, 0.55, 0.1 in that order; an inner
loop result either leaves the PWM at the iteration's start value or
strictly improves the AUC; a rate whose candidate strictly improves the
AUC is adopted at once (the remaining rates are not tried, and the
current PWM, AUC and labeled scores become the candidate's); a
non-improving candidate is skipped (only clobbering the transient
scores); and each outer iteration either stops with the PWM unchanged
or continues with a strictly larger AUC, so across accepted iterations
the AUC is non-decreasing and no candidate with AUC at most the current
one is ever adopted. -/
theorem C1_first_improving_accepted (L : ℕ) :
    LEARNING_RATES = [1.0, 0.55, 0.1] ∧
    (∀ (env : LoopEnv) (start : IterStart L) (rates : List ℝ) (last : EvalData L)
      (pwm' : PWM L) (ev : EvalData L),
      innerLoop env start rates last = some (pwm', ev) →
      pwm' = start.pwm0 ∨ start.auc0 < ev.auc) ∧
    (∀ (env : LoopEnv) (start : IterStart L) (lr : ℝ) (rest : List ℝ)
      (last : EvalData L) (pwm1 : PWM L) (ev1 : EvalData L),
      updatePWM start.yTrue0 start.yScore0 start.sites0 lr start.pwm0 = some pwm1 →
      evalPWM env pwm1 = some ev1 → start.auc0 < ev1.auc →
      innerLoop env start (lr :: rest) last = some (pwm1, ev1)) ∧
    (∀ (env : LoopEnv) (start : IterStart L) (lr : ℝ) (rest : List ℝ)
      (last : EvalData L) (pwm1 : PWM L) (ev1 : EvalData L),
      updatePWM start.yTrue0 start.yScore0 start.sites0 lr start.pwm0 = some pwm1 →
      evalPWM env pwm1 = some ev1 → ¬ start.auc0 < ev1.auc →
      innerLoop env start (lr :: rest) last = innerLoop env start rest ev1) ∧
    (∀ (env : LoopEnv) (rates : List ℝ) (n : ℕ) (s : OptState L) (pwm' : PWM L)
      (ev : EvalData L),
      innerLoop env (snapshot s) rates s.eval = some (pwm', ev) →
      (pwm' = s.pwm ∧ outerLoop env rates (n + 1) s = some (pwm', ev.auc)) ∨
      (s.eval.auc < ev.auc ∧
        outerLoop env rates (n + 1) s = outerLoop env rates n ⟨pwm', ev⟩)) := by
  have hsound : ∀ (env : LoopEnv) (start : IterStart L) (rates : List ℝ)
      (last : EvalData L) (pwm' : PWM L) (ev : EvalData L),
      innerLoop env start rates last = some (pwm', ev) →
      pwm' = start.pwm0 ∨ start.auc0 < ev.auc := by
    intro env start rates
    induction rates with
    | nil =>
      intro last pwm' ev h
      rw [innerLoop_nil] at h
      injection h with h1
      exact Or.inl (congrArg Prod.fst h1).symm
    | cons lr rest ih =>
      intro last pwm' ev h
      rw [innerLoop_cons] at h
      cases hupd : updatePWM start.yTrue0 start.yScore0 start.sites0 lr start.pwm0 with
      | none => simp [hupd] at h
      | some pwm1 =>
        simp only [hupd, Option.some_bind] at h
        cases hev : evalPWM env pwm1 with
        | none => simp [hev] at h
        | some ev1 =>
          simp only [hev, Option.some_bind] at h
          by_cases hlt : start.auc0 < ev1.auc
          · rw [if_pos hlt] at h
            injection h with h1
            refine Or.inr ?_
            have h2 : ev = ev1 := (congrArg Prod.snd h1).symm
            rw [h2]
            exact hlt
          · rw [if_neg hlt] at h
            exact ih ev1 pwm' ev h
  refine ⟨rfl, hsound, ?_, ?_, ?_⟩
  · intro env start lr rest last pwm1 ev1 hupd hev hlt
    rw [innerLoop_cons, hupd]
    simp only [Option.some_bind, hev]
    rw [if_pos hlt]
  · intro env start lr rest last pwm1 ev1 hupd hev hlt
    rw [innerLoop_cons, hupd]
    simp only [Option.some_bind, hev]
    rw [if_neg hlt]
  · intro env rates n s pwm' ev h
    by_cases hpw : s.pwm = pwm'
    · refine Or.inl ⟨hpw.symm, ?_⟩
      rw [outerLoop_succ, h]
      simp only [Option.some_bind]
      rw [if_pos hpw]
    · refine Or.inr ⟨?_, ?_⟩
      · rcases hsound env (snapshot s) rates s.eval pwm' ev h with h1 | h1
        · exact absurd h1.symm hpw
        · exact h1
      · rw [outerLoop_succ, h]
        simp only [Option.some_bind]
        rw [if_neg hpw]

/-- Witness for C1: the empty rate list exercises the soundness and
outer-step parts; the length-1 sequences with the zero seed PWM and an
artificial starting AUC exercise the accepted and skipped branches. -/
theorem C1_first_improving_accepted_witness :
    (innerLoop envW startW [] evW = some (startW.pwm0, evW) ∧
      (startW.pwm0 = startW.pwm0 ∨ startW.auc0 < evW.auc)) ∧
    (updatePWM startW.yTrue0 startW.yScore0 startW.sites0 1 startW.pwm0 = some candW ∧
      evalPWM envW candW = some evW ∧ startW.auc0 < evW.auc ∧
      innerLoop envW startW [1] evW = some (candW, evW)) ∧
    (updatePWM startW2.yTrue0 startW2.yScore0 startW2.sites0 1 startW2.pwm0 = some candW ∧
      evalPWM envW candW = some evW ∧ ¬ startW2.auc0 < evW.auc ∧
      innerLoop envW startW2 [1] evW = innerLoop envW startW2 [] evW) ∧
    (innerLoop envW (snapshot ⟨pwmZ, evW⟩) [] (OptState.mk pwmZ evW).eval =
        some (pwmZ, evW) ∧
      ((pwmZ = (OptState.mk pwmZ evW).pwm ∧
          outerLoop envW [] 1 ⟨pwmZ, evW⟩ = some (pwmZ, evW.auc)) ∨
        ((OptState.mk pwmZ evW).eval.auc < evW.auc ∧
          outerLoop envW [] 1 ⟨pwmZ, evW⟩ = outerLoop envW [] 0 ⟨pwmZ, evW⟩))) := by
  have hupd : updatePWM startW.yTrue0 startW.yScore0 startW.sites0 1 startW.pwm0 =
      some candW := by
    rw [candW]
    exact updatePWM_startW 1
  have hev : evalPWM envW candW = some evW := by
    rw [candW_eq_pwmZ]
    exact evalPWM_pwmZ
  have hlt : startW.auc0 < evW.auc := by
    show (-1 : ℝ) < 1 / 2
    norm_num
  have hnlt : ¬ startW2.auc0 < evW.auc := by
    show ¬ (1 : ℝ) < 1 / 2
    norm_num
  refine ⟨⟨rfl, (C1_first_improving_accepted 1).2.1 envW startW [] evW startW.pwm0 evW rfl⟩,
    ⟨hupd, hev, hlt,
      (C1_first_improving_accepted 1).2.2.1 envW startW 1 [] evW candW evW hupd hev hlt⟩,
    ⟨hupd, hev, hnlt,
      (C1_first_improving_accepted 1).2.2.2.1 envW startW2 1 [] evW candW evW hupd hev hnlt⟩,
    ⟨rfl, (C1_first_improving_accepted 1).2.2.2.2 envW [] 0 ⟨pwmZ, evW⟩ pwmZ evW rfl⟩⟩

theorem nucOfIdx_vals : nucOfIdx 0 = Nuc.A ∧ nucOfIdx 1 = Nuc.C ∧
    nucOfIdx 2 = Nuc.G ∧ nucOfIdx 3 = Nuc.T := ⟨rfl, rfl, rfl, rfl⟩

theorem modelApply_pair (pwm : PWM 2) (x : List Nuc) (hx : x.length = 2) :
    modelApply pwm 2 x = some [(convOut pwm x 0, 0)] := by
  rw [modelApply, convSeq, if_pos ⟨by omega, by decide⟩, hx]
  rfl

theorem convOut_pair (M : PWM 2) (u v : Nuc) :
    convOut M [u, v] 0 =
      (∑ c : Fin 4, M c 0 * oneHot [u, v] c 0) +
        (∑ c : Fin 4, M c 1 * oneHot [u, v] c 1) := by
  rw [convOut]
  have h2 : ∀ c : Fin 4, ∑ k : Fin 2, M c k * oneHot [u, v] c (0 + (k : ℕ)) =
      M c 0 * oneHot [u, v] c 0 + M c 1 * oneHot [u, v] c 1 := by
    intro c
    rw [Fin.sum_univ_two]
    norm_num
  simp only [h2]
  rw [Finset.sum_add_distrib]

theorem oneHot_pair_fst (u v : Nuc) (c : Fin 4) :
    oneHot [u, v] c 0 = if u = nucOfIdx c then 1 else 0 := by
  rw [oneHot]
  simp

theorem oneHot_pair_snd (u v : Nuc) (c : Fin 4) :
    oneHot [u, v] c 1 = if v = nucOfIdx c then 1 else 0 := by
  rw [oneHot]
  simp

theorem convOut_pwmC_AA : convOut pwmC seqAA 0 = -(3 * Real.log 2) := by
  rw [seqAA, convOut_pair]
  rw [Fin.sum_univ_four, Fin.sum_univ_four]
  simp only [oneHot_pair_fst, oneHot_pair_snd, pwmC, Matrix.of_apply,
    Matrix.cons_val', Matrix.cons_val_zero, Matrix.cons_val_one, Matrix.head_cons,
    Matrix.head_fin_const, Matrix.empty_val', Matrix.cons_val_fin_one]
  simp +decide [nucOfIdx, Matrix.vecHead, Matrix.vecTail]
  try ring

theorem convOut_pwmC_AC : convOut pwmC seqAC 0 = -(4 * Real.log 2) := by
  rw [seqAC, convOut_pair]
  rw [Fin.sum_univ_four, Fin.sum_univ_four]
  simp only [oneHot_pair_fst, oneHot_pair_snd, pwmC, Matrix.of_apply,
    Matrix.cons_val', Matrix.cons_val_zero, Matrix.cons_val_one, Matrix.head_cons,
    Matrix.head_fin_const, Matrix.empty_val', Matrix.cons_val_fin_one]
  simp +decide [nucOfIdx, Matrix.vecHead, Matrix.vecTail]
  ring

theorem convOut_pwmC_TT : convOut pwmC seqTT 0 = -200 := by
  rw [seqTT, convOut_pair]
  rw [Fin.sum_univ_four, Fin.sum_univ_four]
  simp only [oneHot_pair_fst, oneHot_pair_snd, pwmC, Matrix.of_apply,
    Matrix.cons_val', Matrix.cons_val_zero, Matrix.cons_val_one, Matrix.head_cons,
    Matrix.head_fin_const, Matrix.empty_val', Matrix.cons_val_fin_one]
  simp +decide [nucOfIdx, Matrix.vecHead, Matrix.vecTail]
  try ring

theorem convOut_pwmC_GT : convOut pwmC seqGT 0 = -200 := by
  rw [seqGT, convOut_pair]
  rw [Fin.sum_univ_four, Fin.sum_univ_four]
  simp only [oneHot_pair_fst, oneHot_pair_snd, pwmC, Matrix.of_apply,
    Matrix.cons_val', Matrix.cons_val_zero, Matrix.cons_val_one, Matrix.head_cons,
    Matrix.head_fin_const, Matrix.empty_val', Matrix.cons_val_fin_one]
  simp +decide [nucOfIdx, Matrix.vecHead, Matrix.vecTail]
  try ring

theorem generatePWM_entry (seqs : List (List Nuc)) {L : ℕ} (c : Fin 4) (i : Fin L) :
    generatePWM L seqs c i = Real.log
      (((countNuc seqs (i : ℕ) (nucOfIdx c) : ℝ) + 1 / 10000) /
        ∑ d : Fin 4, ((countNuc seqs (i : ℕ) (nucOfIdx d) : ℝ) + 1 / 10000)) := by
  rw [generatePWM_eq_spec]
  show Real.log (normalizePFM (pfmOf L seqs) (1 / 10000) i c) = _
  rw [normalizePFM]
  rfl

theorem genAC00 : generatePWM 2 [seqAC] 0 0 = Real.log (10001 / 10004) := by
  rw [generatePWM_entry, Fin.sum_univ_four]
  congr 1
  simp +decide [countNuc, seqAC, nucOfIdx]
  norm_num

theorem genAA00 : generatePWM 2 [seqAA] 0 0 = Real.log (10001 / 10004) := by
  rw [generatePWM_entry, Fin.sum_univ_four]
  congr 1
  simp +decide [countNuc, seqAA, nucOfIdx]
  norm_num

theorem genAC01 : generatePWM 2 [seqAC] 0 1 = Real.log (1 / 10004) := by
  rw [generatePWM_entry, Fin.sum_univ_four]
  congr 1
  simp +decide [countNuc, seqAC, nucOfIdx]
  norm_num

theorem genAA01 : generatePWM 2 [seqAA] 0 1 = Real.log (10001 / 10004) := by
  rw [generatePWM_entry, Fin.sum_univ_four]
  congr 1
  simp +decide [countNuc, seqAA, nucOfIdx]
  norm_num

theorem genAC11 : generatePWM 2 [seqAC] 1 1 = Real.log (10001 / 10004) := by
  rw [generatePWM_entry, Fin.sum_univ_four]
  congr 1
  simp +decide [countNuc, seqAC, nucOfIdx]
  norm_num

theorem genAA11 : generatePWM 2 [seqAA] 1 1 = Real.log (1 / 10004) := by
  rw [generatePWM_entry, Fin.sum_univ_four]
  congr 1
  simp +decide [countNuc, seqAA, nucOfIdx]
  norm_num

theorem genAC20 : generatePWM 2 [seqAC] 2 0 = Real.log (1 / 10004) := by
  rw [generatePWM_entry, Fin.sum_univ_four]
  congr 1
  simp +decide [countNuc, seqAC, nucOfIdx]
  norm_num

theorem genAA20 : generatePWM 2 [seqAA] 2 0 = Real.log (1 / 10004) := by
  rw [generatePWM_entry, Fin.sum_univ_four]
  congr 1
  simp +decide [countNuc, seqAA, nucOfIdx]
  norm_num

theorem genAC30 : generatePWM 2 [seqAC] 3 0 = Real.log (1 / 10004) := by
  rw [generatePWM_entry, Fin.sum_univ_four]
  congr 1
  simp +decide [countNuc, seqAC, nucOfIdx]
  norm_num

theorem genAA30 : generatePWM 2 [seqAA] 3 0 = Real.log (1 / 10004) := by
  rw [generatePWM_entry, Fin.sum_univ_four]
  congr 1
  simp +decide [countNuc, seqAA, nucOfIdx]
  norm_num

theorem genAC31 : generatePWM 2 [seqAC] 3 1 = Real.log (1 / 10004) := by
  rw [generatePWM_entry, Fin.sum_univ_four]
  congr 1
  simp +decide [countNuc, seqAC, nucOfIdx]
  norm_num

theorem genAA31 : generatePWM 2 [seqAA] 3 1 = Real.log (1 / 10004) := by
  rw [generatePWM_entry, Fin.sum_univ_four]
  congr 1
  simp +decide [countNuc, seqAA, nucOfIdx]
  norm_num

theorem diffA0 : generatePWM 2 [seqAC] 0 0 - generatePWM 2 [seqAA] 0 0 = 0 := by
  rw [genAC00, genAA00, sub_self]

theorem diffA1 : generatePWM 2 [seqAC] 0 1 - generatePWM 2 [seqAA] 0 1 =
    -Real.log 10001 := by
  rw [genAC01, genAA01]
  rw [show (1 : ℝ) / 10004 = ((10004 : ℝ))⁻¹ by norm_num, Real.log_inv,
    Real.log_div (by norm_num : (10001 : ℝ) ≠ 0) (by norm_num : (10004 : ℝ) ≠ 0)]
  ring

theorem diffC1 : generatePWM 2 [seqAC] 1 1 - generatePWM 2 [seqAA] 1 1 =
    Real.log 10001 := by
  rw [genAC11, genAA11]
  rw [show (1 : ℝ) / 10004 = ((10004 : ℝ))⁻¹ by norm_num, Real.log_inv,
    Real.log_div (by norm_num : (10001 : ℝ) ≠ 0) (by norm_num : (10004 : ℝ) ≠ 0)]
  ring

theorem diffG0 : generatePWM 2 [seqAC] 2 0 - generatePWM 2 [seqAA] 2 0 = 0 := by
  rw [genAC20, genAA20, sub_self]

theorem diffT0 : generatePWM 2 [seqAC] 3 0 - generatePWM 2 [seqAA] 3 0 = 0 := by
  rw [genAC30, genAA30, sub_self]

theorem diffT1 : generatePWM 2 [seqAC] 3 1 - generatePWM 2 [seqAA] 3 1 = 0 := by
  rw [genAC31, genAA31, sub_self]

theorem candC_apply (lr : ℝ) (c : Fin 4) (i : Fin 2) :
    candC lr c i = pwmC c i +
      lr * (generatePWM 2 [seqAC] c i - generatePWM 2 [seqAA] c i) := by
  rw [candC]
  simp [Matrix.add_apply, Matrix.sub_apply, smul_eq_mul]

theorem pwmC00 : pwmC 0 0 = -(3 * Real.log 2) := rfl

theorem pwmC01 : pwmC 0 1 = 0 := rfl

theorem pwmC11 : pwmC 1 1 = -Real.log 2 := rfl

theorem pwmC20 : pwmC 2 0 = -100 := rfl

theorem pwmC30 : pwmC 3 0 = -100 := rfl

theorem pwmC31 : pwmC 3 1 = -100 := rfl

theorem convOut_candC_AA (lr : ℝ) : convOut (candC lr) seqAA 0 = sAA1 lr := by
  rw [seqAA, convOut_pair, Fin.sum_univ_four, Fin.sum_univ_four]
  simp only [oneHot_pair_fst, oneHot_pair_snd]
  simp +decide [nucOfIdx]
  rw [candC_apply, candC_apply, diffA0, diffA1, pwmC00, pwmC01, sAA1]
  ring

theorem convOut_candC_AC (lr : ℝ) : convOut (candC lr) seqAC 0 = sAC1 lr := by
  rw [seqAC, convOut_pair, Fin.sum_univ_four, Fin.sum_univ_four]
  simp only [oneHot_pair_fst, oneHot_pair_snd]
  simp +decide [nucOfIdx]
  rw [candC_apply, candC_apply, diffA0, diffC1, pwmC00, pwmC11, sAC1]
  ring

theorem convOut_candC_TT (lr : ℝ) : convOut (candC lr) seqTT 0 = -200 := by
  rw [seqTT, convOut_pair, Fin.sum_univ_four, Fin.sum_univ_four]
  simp only [oneHot_pair_fst, oneHot_pair_snd]
  simp +decide [nucOfIdx]
  rw [candC_apply, candC_apply, diffT0, diffT1, pwmC30, pwmC31]
  ring

theorem convOut_candC_GT (lr : ℝ) : convOut (candC lr) seqGT 0 = -200 := by
  rw [seqGT, convOut_pair, Fin.sum_univ_four, Fin.sum_univ_four]
  simp only [oneHot_pair_fst, oneHot_pair_snd]
  simp +decide [nucOfIdx]
  rw [candC_apply, candC_apply, diffG0, diffT1, pwmC20, pwmC31]
  ring

theorem log2_pos : 0 < Real.log 2 := Real.log_pos (by norm_num)

theorem log2_lt_one : Real.log 2 < 1 := by
  have h := Real.exp_one_gt_d9
  rw [Real.log_lt_iff_lt_exp (by norm_num)]
  linarith

theorem logK_pos : 0 < Real.log 10001 := Real.log_pos (by norm_num)

theorem log2_lt_logK : Real.log 2 < Real.log 10001 :=
  Real.log_lt_log (by norm_num) (by norm_num)

theorem logK_lt_14 : Real.log 10001 < 14 := by
  have h1 : Real.log 10001 < Real.log 16384 :=
    Real.log_lt_log (by norm_num) (by norm_num)
  have h2 : Real.log 16384 = 14 * Real.log 2 := by
    rw [show (16384 : ℝ) = 2 ^ 14 by norm_num, Real.log_pow]
    push_cast
    ring
  have h3 := log2_lt_one
  linarith

theorem five_log2_lt_logK : 5 * Real.log 2 < Real.log 10001 := by
  have h2 : (5 : ℝ) * Real.log 2 = Real.log 32 := by
    rw [show (32 : ℝ) = 2 ^ 5 by norm_num, Real.log_pow]
    push_cast
    ring
  rw [h2]
  exact Real.log_lt_log (by norm_num) (by norm_num)

theorem getBestSite_fwd_eval (sequences : List (List Nuc)) (p1 i1 p2 i2 L : ℕ)
    (u v : ℝ) (h : v < u) :
    getBestSite (u, p1, i1) (v, p2, i2) sequences L =
      (u, extractSite sequences i1 p1 L) := by
  rw [getBestSite, if_pos h]

theorem scoreSequences_six (pwm : PWM 2) (s1 s2 s3 s4 s5 s6 : List Nuc)
    (a1 a2 a3 b1 b2 b3 : ℝ)
    (h1 : modelApply pwm 2 s1 = some [(a1, 0)])
    (h2 : modelApply pwm 2 s2 = some [(a2, 0)])
    (h3 : modelApply pwm 2 s3 = some [(a3, 0)])
    (h4 : modelApply pwm 2 s4 = some [(b1, 0)])
    (h5 : modelApply pwm 2 s5 = some [(b2, 0)])
    (h6 : modelApply pwm 2 s6 = some [(b3, 0)])
    (hl1 : s1.take 2 = s1) (hl2 : s2.take 2 = s2) (hl3 : s3.take 2 = s3)
    (hg1 : b1 < a1) (hg2 : b2 < a2) (hg3 : b3 < a3) :
    scoreSequences pwm 2 [s1, s2, s3, s4, s5, s6] =
      some ([a1, a2, a3], [s1, s2, s3]) := by
  have he1 : extractSite [s1, s2, s3, s4, s5, s6] 0 0 2 = s1 := by
    show (s1.drop 0).take 2 = s1
    rw [List.drop_zero]
    exact hl1
  have he2 : extractSite [s1, s2, s3, s4, s5, s6] 1 0 2 = s2 := by
    show (s2.drop 0).take 2 = s2
    rw [List.drop_zero]
    exact hl2
  have he3 : extractSite [s1, s2, s3, s4, s5, s6] 2 0 2 = s3 := by
    show (s3.drop 0).take 2 = s3
    rw [List.drop_zero]
    exact hl3
  have hgb1 : getBestSite (a1, 0, 0) (b1, 0, 3) [s1, s2, s3, s4, s5, s6] 2 =
      (a1, s1) := by
    rw [getBestSite_fwd_eval _ _ _ _ _ _ _ _ hg1, he1]
  have hgb2 : getBestSite (a2, 0, 1) (b2, 0, 4) [s1, s2, s3, s4, s5, s6] 2 =
      (a2, s2) := by
    rw [getBestSite_fwd_eval _ _ _ _ _ _ _ _ hg2, he2]
  have hgb3 : getBestSite (a3, 0, 2) (b3, 0, 5) [s1, s2, s3, s4, s5, s6] 2 =
      (a3, s3) := by
    rw [getBestSite_fwd_eval _ _ _ _ _ _ _ _ hg3, he3]
  rw [scoreSequences]
  simp only [List.mapM_cons, List.mapM_nil, h1, h2, h3, h4, h5, h6, Option.pure_def,
    Option.bind_eq_bind, Option.some_bind]
  norm_num
  have hX : (List.take 3 ([a1, a2, a3, b1, b2, b3].zip
        ([0, 0, 0, 0, 0, 0].zip (List.range 6)))).zip
      (List.drop 3 ([a1, a2, a3, b1, b2, b3].zip
        ([0, 0, 0, 0, 0, 0].zip (List.range 6)))) =
      [((a1, 0, 0), (b1, 0, 3)), ((a2, 0, 1), (b2, 0, 4)),
        ((a3, 0, 2), (b3, 0, 5))] := rfl
  simp only [hX, List.map_cons, List.map_nil, Function.comp_apply]
  rw [hgb1, hgb2, hgb3]
  constructor <;> rfl

theorem scoreSequences_four (pwm : PWM 2) (s1 s2 s3 s4 : List Nuc)
    (a1 a2 b1 b2 : ℝ)
    (h1 : modelApply pwm 2 s1 = some [(a1, 0)])
    (h2 : modelApply pwm 2 s2 = some [(a2, 0)])
    (h3 : modelApply pwm 2 s3 = some [(b1, 0)])
    (h4 : modelApply pwm 2 s4 = some [(b2, 0)])
    (hl1 : s1.take 2 = s1) (hl2 : s2.take 2 = s2)
    (hg1 : b1 < a1) (hg2 : b2 < a2) :
    scoreSequences pwm 2 [s1, s2, s3, s4] = some ([a1, a2], [s1, s2]) := by
  have he1 : extractSite [s1, s2, s3, s4] 0 0 2 = s1 := by
    show (s1.drop 0).take 2 = s1
    rw [List.drop_zero]
    exact hl1
  have he2 : extractSite [s1, s2, s3, s4] 1 0 2 = s2 := by
    show (s2.drop 0).take 2 = s2
    rw [List.drop_zero]
    exact hl2
  have hgb1 : getBestSite (a1, 0, 0) (b1, 0, 2) [s1, s2, s3, s4] 2 =
      (a1, s1) := by
    rw [getBestSite_fwd_eval _ _ _ _ _ _ _ _ hg1, he1]
  have hgb2 : getBestSite (a2, 0, 1) (b2, 0, 3) [s1, s2, s3, s4] 2 =
      (a2, s2) := by
    rw [getBestSite_fwd_eval _ _ _ _ _ _ _ _ hg2, he2]
  rw [scoreSequences]
  simp only [List.mapM_cons, List.mapM_nil, h1, h2, h3, h4, Option.pure_def,
    Option.bind_eq_bind, Option.some_bind]
  norm_num
  have hX : (List.take 2 ([a1, a2, b1, b2].zip
        ([0, 0, 0, 0].zip (List.range 4)))).zip
      (List.drop 2 ([a1, a2, b1, b2].zip
        ([0, 0, 0, 0].zip (List.range 4)))) =
      [((a1, 0, 0), (b1, 0, 2)), ((a2, 0, 1), (b2, 0, 3))] := rfl
  simp only [hX, List.map_cons, List.map_nil, Function.comp_apply]
  rw [hgb1, hgb2]
  constructor <;> rfl

theorem computeAUC_ppq_desc (p q : ℝ) (h : q < p) :
    computeAUC [p, p, q] [p, q] =
      some (7 / 12, [true, true, true, false, false], [p, p, q, p, q]) := by
  have hne : ¬ (([p, p, q] : List ℝ) = [] ∨ ([p, q] : List ℝ) = []) := by simp
  have hca : computeAUC [p, p, q] [p, q] =
      (rocAucScore [true, true, true, false, false] [p, p, q, p, q]).map
        (fun a => (a, [true, true, true, false, false], [p, p, q, p, q])) := rfl
  have hroc : rocAucScore [true, true, true, false, false] [p, p, q, p, q] =
      if ([p, p, q] : List ℝ) = [] ∨ ([p, q] : List ℝ) = [] then none
      else some ((([p, p, q].map fun x =>
          ([p, q].map fun n => pairCredit x n).sum).sum) /
        ((([p, p, q] : List ℝ).length : ℝ) * (([p, q] : List ℝ).length : ℝ))) := rfl
  have hpq : pairCredit p q = 1 := by
    rw [pairCredit, if_pos h]
  have hqp : pairCredit q p = 0 := by
    rw [pairCredit, if_neg (not_lt.mpr h.le), if_neg h.ne]
  rw [hca, hroc, if_neg hne]
  simp [pairCredit_self, hpq, hqp]
  norm_num

theorem computeAUC_ppq_asc (p q : ℝ) (h : p < q) :
    computeAUC [p, p, q] [p, q] =
      some (5 / 12, [true, true, true, false, false], [p, p, q, p, q]) := by
  have hne : ¬ (([p, p, q] : List ℝ) = [] ∨ ([p, q] : List ℝ) = []) := by simp
  have hca : computeAUC [p, p, q] [p, q] =
      (rocAucScore [true, true, true, false, false] [p, p, q, p, q]).map
        (fun a => (a, [true, true, true, false, false], [p, p, q, p, q])) := rfl
  have hroc : rocAucScore [true, true, true, false, false] [p, p, q, p, q] =
      if ([p, p, q] : List ℝ) = [] ∨ ([p, q] : List ℝ) = [] then none
      else some ((([p, p, q].map fun x =>
          ([p, q].map fun n => pairCredit x n).sum).sum) /
        ((([p, p, q] : List ℝ).length : ℝ) * (([p, q] : List ℝ).length : ℝ))) := rfl
  have hpq : pairCredit p q = 0 := by
    rw [pairCredit, if_neg (not_lt.mpr h.le), if_neg h.ne]
  have hqp : pairCredit q p = 1 := by
    rw [pairCredit, if_pos h]
  rw [hca, hroc, if_neg hne]
  simp [pairCredit_self, hpq, hqp]
  norm_num

theorem argsortDesc_aabab (x y : ℝ) (h : y < x) :
    argsortDesc [x, x, y, x, y] = [0, 1, 3, 2, 4] := by
  set ys : List ℝ := [x, x, y, x, y] with hys
  have le_tt : ∀ i j : ℕ, ys.getD j 0 ≤ ys.getD i 0 → leIdx ys i j = true := by
    intro i j hij
    simp only [leIdx]
    exact decide_eq_true hij
  have h01 : leIdx ys 0 1 = true := le_tt 0 1 (le_refl x)
  have h02 : leIdx ys 0 2 = true := le_tt 0 2 (le_of_lt h)
  have h12 : leIdx ys 1 2 = true := le_tt 1 2 (le_of_lt h)
  have h34 : leIdx ys 3 4 = true := le_tt 3 4 (le_of_lt h)
  have h03 : leIdx ys 0 3 = true := le_tt 0 3 (le_refl x)
  have h13 : leIdx ys 1 3 = true := le_tt 1 3 (le_refl x)
  have h23 : leIdx ys 2 3 = false := by
    simp only [leIdx, decide_eq_false_iff_not]
    show ¬ x ≤ y
    exact not_le.mpr h
  have h24 : leIdx ys 2 4 = true := le_tt 2 4 (le_refl y)
  have hms012 : List.mergeSort [0, 1, 2] (leIdx ys) = [0, 1, 2] := by
    apply List.mergeSort_of_sorted
    refine List.pairwise_cons.2 ⟨?_, List.pairwise_cons.2 ⟨?_, List.pairwise_singleton _ _⟩⟩
    · intro b hb
      simp only [List.mem_cons, List.not_mem_nil, or_false] at hb
      rcases hb with rfl | rfl
      · exact h01
      · exact h02
    · intro b hb
      simp only [List.mem_cons, List.not_mem_nil, or_false] at hb
      rcases hb with rfl
      exact h12
  have hms34 : List.mergeSort [3, 4] (leIdx ys) = [3, 4] := by
    apply List.mergeSort_of_sorted
    refine List.pairwise_cons.2 ⟨?_, List.pairwise_singleton _ _⟩
    intro b hb
    simp only [List.mem_cons, List.not_mem_nil, or_false] at hb
    rcases hb with rfl
    exact h34
  have hmerge : List.merge [0, 1, 2] [3, 4] (leIdx ys) = [0, 1, 3, 2, 4] := by
    rw [List.cons_merge_cons, h03]
    simp only [if_true]
    rw [List.cons_merge_cons, h13]
    simp only [if_true]
    rw [List.cons_merge_cons, h23]
    simp only [Bool.false_eq_true, if_false]
    rw [List.cons_merge_cons, h24]
    simp only [if_true]
    simp [List.merge_right]
  show List.mergeSort (List.range ys.length) (leIdx ys) = [0, 1, 3, 2, 4]
  have hrange : List.range ys.length = [0, 1, 2, 3, 4] := rfl
  rw [hrange, List.mergeSort]
  have hsp1 : ((List.splitInTwo ⟨[0, 1, 2, 3, 4], rfl⟩).1 : List ℕ) = [0, 1, 2] := by
    simp [List.splitInTwo_fst]
  have hsp2 : ((List.splitInTwo ⟨[0, 1, 2, 3, 4], rfl⟩).2 : List ℕ) = [3, 4] := by
    simp [List.splitInTwo_snd]
  rw [hsp1, hsp2, hms012, hms34, hmerge]

theorem scoreSequences_C0_pos :
    scoreSequences pwmC 2 [seqAA, seqAA, seqAC, seqTT, seqTT, seqGT] =
      some ([-(3 * Real.log 2), -(3 * Real.log 2), -(4 * Real.log 2)],
        [seqAA, seqAA, seqAC]) := by
  have hAA : modelApply pwmC 2 seqAA = some [(-(3 * Real.log 2), 0)] := by
    rw [modelApply_pair pwmC seqAA rfl, convOut_pwmC_AA]
  have hAC : modelApply pwmC 2 seqAC = some [(-(4 * Real.log 2), 0)] := by
    rw [modelApply_pair pwmC seqAC rfl, convOut_pwmC_AC]
  have hTT : modelApply pwmC 2 seqTT = some [((-200 : ℝ), 0)] := by
    rw [modelApply_pair pwmC seqTT rfl, convOut_pwmC_TT]
  have hGT : modelApply pwmC 2 seqGT = some [((-200 : ℝ), 0)] := by
    rw [modelApply_pair pwmC seqGT rfl, convOut_pwmC_GT]
  exact scoreSequences_six pwmC seqAA seqAA seqAC seqTT seqTT seqGT _ _ _ _ _ _
    hAA hAA hAC hTT hTT hGT rfl rfl rfl
    (by linarith [log2_lt_one, log2_pos]) (by linarith [log2_lt_one, log2_pos])
    (by linarith [log2_lt_one, log2_pos])

theorem scoreSequences_C0_neg :
    scoreSequences pwmC 2 [seqAA, seqAC, seqTT, seqGT] =
      some ([-(3 * Real.log 2), -(4 * Real.log 2)], [seqAA, seqAC]) := by
  have hAA : modelApply pwmC 2 seqAA = some [(-(3 * Real.log 2), 0)] := by
    rw [modelApply_pair pwmC seqAA rfl, convOut_pwmC_AA]
  have hAC : modelApply pwmC 2 seqAC = some [(-(4 * Real.log 2), 0)] := by
    rw [modelApply_pair pwmC seqAC rfl, convOut_pwmC_AC]
  have hTT : modelApply pwmC 2 seqTT = some [((-200 : ℝ), 0)] := by
    rw [modelApply_pair pwmC seqTT rfl, convOut_pwmC_TT]
  have hGT : modelApply pwmC 2 seqGT = some [((-200 : ℝ), 0)] := by
    rw [modelApply_pair pwmC seqGT rfl, convOut_pwmC_GT]
  exact scoreSequences_four pwmC seqAA seqAC seqTT seqGT _ _ _ _
    hAA hAC hTT hGT rfl rfl
    (by linarith [log2_lt_one, log2_pos]) (by linarith [log2_lt_one, log2_pos])

theorem evalPWM_C0 : evalPWM envC pwmC = some evC0 := by
  have hauc : computeAUC
      [-(3 * Real.log 2), -(3 * Real.log 2), -(4 * Real.log 2)]
      [-(3 * Real.log 2), -(4 * Real.log 2)] =
      some (7 / 12, [true, true, true, false, false],
        [-(3 * Real.log 2), -(3 * Real.log 2), -(4 * Real.log 2),
          -(3 * Real.log 2), -(4 * Real.log 2)]) :=
    computeAUC_ppq_desc _ _ (by linarith [log2_pos])
  rw [evalPWM]
  simp only [envC, scoreSequences_C0_pos, scoreSequences_C0_neg,
    Option.bind_eq_bind, Option.some_bind, hauc]
  rfl

theorem sAA1_lt_sAC1 (lr : ℝ) (hkey : Real.log 2 < 2 * lr * Real.log 10001) :
    sAA1 lr < sAC1 lr := by
  rw [sAA1, sAC1]
  nlinarith [hkey]

theorem neg200_lt_sAA1 (lr : ℝ) (h0 : 0 ≤ lr) (h1 : lr ≤ 1) :
    (-200 : ℝ) < sAA1 lr := by
  rw [sAA1]
  have hlk : lr * Real.log 10001 ≤ Real.log 10001 :=
    mul_le_of_le_one_left logK_pos.le h1
  linarith [logK_lt_14, log2_lt_one, log2_pos]

theorem neg200_lt_sAC1 (lr : ℝ) (h0 : 0 ≤ lr) : (-200 : ℝ) < sAC1 lr := by
  rw [sAC1]
  have hlk : 0 ≤ lr * Real.log 10001 := mul_nonneg h0 logK_pos.le
  linarith [log2_lt_one, log2_pos]

theorem scoreSequences_cand_pos (lr : ℝ) (h0 : 0 ≤ lr) (h1 : lr ≤ 1) :
    scoreSequences (candC lr) 2 [seqAA, seqAA, seqAC, seqTT, seqTT, seqGT] =
      some ([sAA1 lr, sAA1 lr, sAC1 lr], [seqAA, seqAA, seqAC]) := by
  have hAA : modelApply (candC lr) 2 seqAA = some [(sAA1 lr, 0)] := by
    rw [modelApply_pair (candC lr) seqAA rfl, convOut_candC_AA]
  have hAC : modelApply (candC lr) 2 seqAC = some [(sAC1 lr, 0)] := by
    rw [modelApply_pair (candC lr) seqAC rfl, convOut_candC_AC]
  have hTT : modelApply (candC lr) 2 seqTT = some [((-200 : ℝ), 0)] := by
    rw [modelApply_pair (candC lr) seqTT rfl, convOut_candC_TT]
  have hGT : modelApply (candC lr) 2 seqGT = some [((-200 : ℝ), 0)] := by
    rw [modelApply_pair (candC lr) seqGT rfl, convOut_candC_GT]
  exact scoreSequences_six (candC lr) seqAA seqAA seqAC seqTT seqTT seqGT _ _ _ _ _ _
    hAA hAA hAC hTT hTT hGT rfl rfl rfl
    (neg200_lt_sAA1 lr h0 h1) (neg200_lt_sAA1 lr h0 h1) (neg200_lt_sAC1 lr h0)

theorem scoreSequences_cand_neg (lr : ℝ) (h0 : 0 ≤ lr) (h1 : lr ≤ 1) :
    scoreSequences (candC lr) 2 [seqAA, seqAC, seqTT, seqGT] =
      some ([sAA1 lr, sAC1 lr], [seqAA, seqAC]) := by
  have hAA : modelApply (candC lr) 2 seqAA = some [(sAA1 lr, 0)] := by
    rw [modelApply_pair (candC lr) seqAA rfl, convOut_candC_AA]
  have hAC : modelApply (candC lr) 2 seqAC = some [(sAC1 lr, 0)] := by
    rw [modelApply_pair (candC lr) seqAC rfl, convOut_candC_AC]
  have hTT : modelApply (candC lr) 2 seqTT = some [((-200 : ℝ), 0)] := by
    rw [modelApply_pair (candC lr) seqTT rfl, convOut_candC_TT]
  have hGT : modelApply (candC lr) 2 seqGT = some [((-200 : ℝ), 0)] := by
    rw [modelApply_pair (candC lr) seqGT rfl, convOut_candC_GT]
  exact scoreSequences_four (candC lr) seqAA seqAC seqTT seqGT _ _ _ _
    hAA hAC hTT hGT rfl rfl
    (neg200_lt_sAA1 lr h0 h1) (neg200_lt_sAC1 lr h0)

theorem evalPWM_candC (lr : ℝ) (h0 : 0 ≤ lr) (h1 : lr ≤ 1)
    (hkey : Real.log 2 < 2 * lr * Real.log 10001) :
    evalPWM envC (candC lr) = some (evC1 lr) := by
  have hauc := computeAUC_ppq_asc (sAA1 lr) (sAC1 lr) (sAA1_lt_sAC1 lr hkey)
  rw [evalPWM]
  simp only [envC, scoreSequences_cand_pos lr h0 h1, scoreSequences_cand_neg lr h0 h1,
    Option.bind_eq_bind, Option.some_bind, hauc]
  rfl

theorem updatePWM_C (lr : ℝ) :
    updatePWM [true, true, true, false, false]
      [-(3 * Real.log 2), -(3 * Real.log 2), -(4 * Real.log 2),
        -(3 * Real.log 2), -(4 * Real.log 2)]
      [seqAA, seqAA, seqAC, seqAA, seqAC] lr pwmC = some (candC lr) := by
  have hba : -(4 * Real.log 2) < -(3 * Real.log 2) := by linarith [log2_pos]
  have hsort := argsortDesc_aabab (-(3 * Real.log 2)) (-(4 * Real.log 2)) hba
  have hsl : sortedLabels [true, true, true, false, false]
      [-(3 * Real.log 2), -(3 * Real.log 2), -(4 * Real.log 2),
        -(3 * Real.log 2), -(4 * Real.log 2)] =
      [true, true, false, true, false] := by
    rw [sortedLabels, hsort]
    rfl
  have hss : sortedSites
      [-(3 * Real.log 2), -(3 * Real.log 2), -(4 * Real.log 2),
        -(3 * Real.log 2), -(4 * Real.log 2)]
      [seqAA, seqAA, seqAC, seqAA, seqAC] =
      [seqAA, seqAA, seqAA, seqAC, seqAC] := by
    rw [sortedSites, hsort]
    rfl
  have hfn : ixFirstNegative [true, true, true, false, false]
      [-(3 * Real.log 2), -(3 * Real.log 2), -(4 * Real.log 2),
        -(3 * Real.log 2), -(4 * Real.log 2)] = 2 := by
    rw [ixFirstNegative, hsl]
    rfl
  have hlp : ixLastPositive [true, true, true, false, false]
      [-(3 * Real.log 2), -(3 * Real.log 2), -(4 * Real.log 2),
        -(3 * Real.log 2), -(4 * Real.log 2)] = 4 := by
    rw [ixLastPositive, hsl]
    rfl
  have hzone : confusionZone [true, true, true, false, false]
      [-(3 * Real.log 2), -(3 * Real.log 2), -(4 * Real.log 2),
        -(3 * Real.log 2), -(4 * Real.log 2)]
      [seqAA, seqAA, seqAC, seqAA, seqAC] =
      [(seqAA, false), (seqAC, true)] := by
    rw [confusionZone, hfn, hlp, hss, hsl]
    rfl
  have hpm : positiveMix [true, true, true, false, false]
      [-(3 * Real.log 2), -(3 * Real.log 2), -(4 * Real.log 2),
        -(3 * Real.log 2), -(4 * Real.log 2)]
      [seqAA, seqAA, seqAC, seqAA, seqAC] = [seqAC] := by
    rw [positiveMix, hzone]
    rfl
  have hnm : negativeMix [true, true, true, false, false]
      [-(3 * Real.log 2), -(3 * Real.log 2), -(4 * Real.log 2),
        -(3 * Real.log 2), -(4 * Real.log 2)]
      [seqAA, seqAA, seqAC, seqAA, seqAC] = [seqAA] := by
    rw [negativeMix, hzone]
    rfl
  rw [updatePWM, if_pos ⟨by rw [hsl]; rfl, by rw [hsl]; rfl⟩, hpm, hnm]
  rfl

theorem innerLoopC :
    innerLoop envC (snapshot ⟨pwmC, evC0⟩) LEARNING_RATES evC0 =
      some (pwmC, evC1 (0.1 : ℝ)) := by
  have h1 : evalPWM envC (candC (1.0 : ℝ)) = some (evC1 (1.0 : ℝ)) :=
    evalPWM_candC _ (by norm_num) (by norm_num)
      (by norm_num; linarith [log2_lt_logK, logK_pos])
  have h2 : evalPWM envC (candC (0.55 : ℝ)) = some (evC1 (0.55 : ℝ)) :=
    evalPWM_candC _ (by norm_num) (by norm_num)
      (by norm_num; linarith [log2_lt_logK, logK_pos])
  have h3 : evalPWM envC (candC (0.1 : ℝ)) = some (evC1 (0.1 : ℝ)) :=
    evalPWM_candC _ (by norm_num) (by norm_num)
      (by norm_num; linarith [five_log2_lt_logK, log2_pos])
  have hauc : ∀ lr : ℝ, (evC1 lr).auc = 5 / 12 := fun _ => rfl
  have hnot : ¬ ((7 : ℝ) / 12 < 5 / 12) := by norm_num
  have hsnap : snapshot (⟨pwmC, evC0⟩ : OptState 2) =
      (⟨pwmC, 7 / 12, [true, true, true, false, false],
        [-(3 * Real.log 2), -(3 * Real.log 2), -(4 * Real.log 2),
          -(3 * Real.log 2), -(4 * Real.log 2)],
        [seqAA, seqAA, seqAC, seqAA, seqAC]⟩ : IterStart 2) := rfl
  rw [hsnap, show LEARNING_RATES = [(1.0 : ℝ), 0.55, 0.1] from rfl]
  rw [innerLoop_cons]
  dsimp only
  rw [updatePWM_C]
  simp only [Option.some_bind]
  rw [h1]
  simp only [Option.some_bind]
  rw [hauc, if_neg hnot]
  rw [innerLoop_cons]
  dsimp only
  rw [updatePWM_C]
  simp only [Option.some_bind]
  rw [h2]
  simp only [Option.some_bind]
  rw [hauc, if_neg hnot]
  rw [innerLoop_cons]
  dsimp only
  rw [updatePWM_C]
  simp only [Option.some_bind]
  rw [h3]
  simp only [Option.some_bind]
  rw [hauc, if_neg hnot]
  rw [innerLoop_nil]

theorem damoC :
    damo [seqAA, seqAA, seqAC] [seqAA, seqAC] pwmC 1 =
      some (pwmC, 7 / 12, 5 / 12) := by
  have hout : outerLoop envC LEARNING_RATES 1 (⟨pwmC, evC0⟩ : OptState 2) =
      some (pwmC, 5 / 12) := by
    rw [outerLoop_succ]
    dsimp only
    rw [innerLoopC]
    simp only [Option.some_bind]
    rw [if_pos trivial]
    rfl
  show (evalPWM envC pwmC).bind (fun ev =>
      (outerLoop envC LEARNING_RATES 1 (⟨pwmC, ev⟩ : OptState 2)).bind fun r =>
        some (r.1, ev.auc, r.2)) = some (pwmC, 7 / 12, 5 / 12)
  rw [evalPWM_C0]
  simp only [Option.some_bind]
  rw [hout]
  simp only [Option.some_bind]
  rfl

/-- C6: when the learning-rate loop ends with the PWM equal to the
iteration's start value, the optimizer stops and returns that PWM, but
the AUC it reports alongside is the `auc` variable as the inner loop
left it — the last evaluated candidate's AUC, not the AUC of the
returned PWM (first conjunct, the mechanism).  On the concrete failing
input (positives [AA, AA, AC], negatives [AA, AC], seed PWM `pwmC`),
`damo` converges in the first iteration, returns the seed PWM whose
AUC is 7/12, yet reports the final AUC 5/12 — the AUC of the last
discarded lr = 0.1 candidate (remaining conjuncts, the concrete
divergence). -/
theorem C6_converged_reports_last_candidate_auc :
    (∀ {L : ℕ} (env : LoopEnv) (rates : List ℝ) (n : ℕ) (s : OptState L)
      (ev : EvalData L),
      innerLoop env (snapshot s) rates s.eval = some (s.pwm, ev) →
      outerLoop env rates (n + 1) s = some (s.pwm, ev.auc)) ∧
    damo [seqAA, seqAA, seqAC] [seqAA, seqAC] pwmC 1 =
      some (pwmC, 7 / 12, 5 / 12) ∧
    evalPWM envC pwmC = some evC0 ∧ evC0.auc = 7 / 12 ∧
    ((7 : ℝ) / 12 ≠ 5 / 12) := by
  refine ⟨?_, damoC, evalPWM_C0, rfl, by norm_num⟩
  intro L env rates n s ev h
  rw [outerLoop_succ, h]
  simp

/-- Witness for C6's mechanism conjunct on the empty rate list. -/
theorem C6_converged_reports_last_candidate_auc_witness :
    innerLoop envW (snapshot ⟨pwmZ, evW⟩) [] (OptState.mk pwmZ evW).eval =
        some ((OptState.mk pwmZ evW).pwm, evW) ∧
      outerLoop envW [] 3 ⟨pwmZ, evW⟩ = some ((OptState.mk pwmZ evW).pwm, evW.auc) :=
  ⟨rfl, C6_converged_reports_last_candidate_auc.1 envW [] 2 ⟨pwmZ, evW⟩ evW rfl⟩

end CuDAMO
